import Mathlib

/-!
Verification of the course-scheduler requirement-compilation and
constraint-scheduling engine.

The development shallowly embeds the engine's core:
- the requirement parser (utils/req_parser.py),
- the token resolver (utils/course_catalog.py),
- the MILP constraint compiler (services/solver.py), and
- the pre-solve input validation (services/validation.py).

Python strings are modelled as lists of characters (Str); Python dicts as
association lists where the last binding for a key wins (dlookup), matching
dict-literal overwrite semantics; PuLP linear constraints as explicit linear
expressions over a variable alphabet (SVar).  Bounded recursion that Python
expresses by structural string shrinking is given fuel equal to the string
length plus one, which is always sufficient (proved via length lemmas), so
every definition is executable by the kernel.
-/

/-- Python str is modelled as a list of characters. -/
abbrev Str := List Char

/-- ASCII whitespace, the character class of Python str.strip() and of the
regex class backslash-s as they occur in catalog data. -/
def pySpace (c : Char) : Bool :=
  c == ' ' || c == '\t' || c == '\n' || c == '\r' || c == Char.ofNat 11 || c == Char.ofNat 12

/-- Python str.strip(): drop leading and trailing whitespace. -/
def pyStrip (s : Str) : Str :=
  ((s.dropWhile pySpace).reverse.dropWhile pySpace).reverse

/-- State machine for collapsing whitespace runs; prevSpace records whether the
previous character was part of a whitespace run already replaced. -/
def collapseGo (prevSpace : Bool) : Str → Str
  | [] => []
  | c :: rest =>
    if pySpace c then
      if prevSpace then collapseGo true rest else ' ' :: collapseGo true rest
    else c :: collapseGo false rest

/-- Python re.sub of one-or-more whitespace by a single space: every maximal
whitespace run becomes one space character. -/
def collapseWS (s : Str) : Str := collapseGo false s

/-- Whether pat is a prefix of s (character-wise). -/
def strHasPrefix : Str → Str → Bool
  | [], _ => true
  | _ :: _, [] => false
  | p :: ps, c :: cs => p == c && strHasPrefix ps cs

/-- Fueled worker for Python str.replace: replaces non-overlapping occurrences
of pat left to right.  Each step consumes at least one input character, so
fuel equal to the input length is always enough; the fuel-zero branch is
unreachable under that call pattern. -/
def replaceAllF (pat rep : Str) : Nat → Str → Str
  | _, [] => []
  | 0, l => l
  | fuel + 1, c :: rest =>
    if strHasPrefix pat (c :: rest) && !pat.isEmpty then
      rep ++ replaceAllF pat rep fuel ((c :: rest).drop pat.length)
    else
      c :: replaceAllF pat rep fuel rest

/-- Python str.replace(pat, rep) for a non-empty pattern. -/
def replaceAll (pat rep s : Str) : Str := replaceAllF pat rep s.length s

/-- Python str.split(sep) for a one-character separator: the list of (possibly
empty) segments between separator occurrences. -/
def splitOnChar (sep : Char) : Str → List Str
  | [] => [[]]
  | c :: rest =>
    match splitOnChar sep rest with
    | [] => [[]]
    | h :: t => if c == sep then [] :: h :: t else (c :: h) :: t

-- ---------------------------------------------------------------------------
-- Requirement IR (services/req_ir.py)
-- ---------------------------------------------------------------------------

/-- The requirement tree: ReqLeaf / ReqAnd / ReqOr from services/req_ir.py.
For internal courses, code holds a resolved catalog course code; for
external/unresolved tokens code is none and kind captures the classification. -/
inductive Req where
  | leaf (code : Option Str) (raw : Str) (kind : Str)
  | anR (items : List Req)
  | orR (items : List Req)

mutual
/-- Decidable structural equality on requirement trees, matching Python
dataclass equality (and the repr-keyed dedup of the parser). -/
def Req.decEq : (a b : Req) → Decidable (a = b)
  | .leaf c r k, .leaf c' r' k' =>
    if h1 : c = c' then
      if h2 : r = r' then
        if h3 : k = k' then .isTrue (by rw [h1, h2, h3])
        else .isFalse (fun he => by injection he with _ _ hk; exact h3 hk)
      else .isFalse (fun he => by injection he with _ hr _; exact h2 hr)
    else .isFalse (fun he => by injection he with hc _ _; exact h1 hc)
  | .leaf _ _ _, .anR _ => .isFalse (fun he => Req.noConfusion he)
  | .leaf _ _ _, .orR _ => .isFalse (fun he => Req.noConfusion he)
  | .anR _, .leaf _ _ _ => .isFalse (fun he => Req.noConfusion he)
  | .anR xs, .anR ys =>
    match Req.decEqL xs ys with
    | .isTrue h => .isTrue (by rw [h])
    | .isFalse h => .isFalse (fun he => by injection he with hi; exact h hi)
  | .anR _, .orR _ => .isFalse (fun he => Req.noConfusion he)
  | .orR _, .leaf _ _ _ => .isFalse (fun he => Req.noConfusion he)
  | .orR _, .anR _ => .isFalse (fun he => Req.noConfusion he)
  | .orR xs, .orR ys =>
    match Req.decEqL xs ys with
    | .isTrue h => .isTrue (by rw [h])
    | .isFalse h => .isFalse (fun he => by injection he with hi; exact h hi)
/-- Decidable equality on lists of requirement trees. -/
def Req.decEqL : (a b : List Req) → Decidable (a = b)
  | [], [] => .isTrue rfl
  | [], _ :: _ => .isFalse (fun he => List.noConfusion he)
  | _ :: _, [] => .isFalse (fun he => List.noConfusion he)
  | x :: xs, y :: ys =>
    match Req.decEq x y, Req.decEqL xs ys with
    | .isTrue h1, .isTrue h2 => .isTrue (by rw [h1, h2])
    | .isFalse h1, _ => .isFalse (fun he => by injection he with hh _; exact h1 hh)
    | _, .isFalse h2 => .isFalse (fun he => by injection he with _ ht; exact h2 ht)
end

instance : DecidableEq Req := Req.decEq


-- ---------------------------------------------------------------------------
-- Dict lookup (Python dict semantics: last binding wins)
-- ---------------------------------------------------------------------------

/-- Lookup in an association list with Python-dict overwrite semantics: the
last binding for a key wins. -/
def dlookup {κ α : Type} [BEq κ] (m : List (κ × α)) (k : κ) : Option α :=
  (m.reverse.find? (fun p => p.1 == k)).map (fun p => p.2)

-- ---------------------------------------------------------------------------
-- Requirement parser (utils/req_parser.py)
-- ---------------------------------------------------------------------------

/-- normalize_text from utils/req_parser.py: strip, replace the en-dash by a
hyphen, collapse whitespace runs to a single space. -/
def normalize_text (s : Str) : Str :=
  collapseWS ((pyStrip s).map (fun c => if c = '–' then '-' else c))

/-- The two catalog-artifact repairs applied by parse_req_text before
splitting: the corrupted token sequence plus-plus-C becomes C-plus-plus, in
both of the observed corrupted spellings. -/
def fixArtifacts (s : Str) : Str :=
  replaceAll " + +C".data " C++".data (replaceAll "++C".data "C++".data s)

/-- split_top from utils/req_parser.py: split on the separator, strip each
part, and keep only non-empty parts. -/
def split_top (s : Str) (sep : Char) : List Str :=
  ((splitOnChar sep s).map pyStrip).filter (fun p => !p.isEmpty)

mutual
/-- Validity of a subtree for the split gate of the parser: no unresolved
leaves; a leaf passes when its code is present or its kind is external. -/
def valid_req : Req → Bool
  | .leaf code _ kind => code.isSome || kind == "external".data
  | .anR items => valid_reqL items
  | .orR items => valid_reqL items
def valid_reqL : List Req → Bool
  | [] => true
  | t :: ts => valid_req t && valid_reqL ts
end

/-- The validity check of utils/req_parser.py on an optional parse result:
none is never valid; otherwise the subtree must contain no unresolved leaf. -/
def is_valid_split_item : Option Req → Bool
  | none => false
  | some t => valid_req t

/-- Worker for dedupe, carrying the set of already-seen items. -/
def dedupeGo (seen : List Req) : List Req → List Req
  | [] => []
  | it :: rest =>
    if it ∈ seen then dedupeGo seen rest
    else it :: dedupeGo (seen ++ [it]) rest

/-- dedupe from utils/req_parser.py: drop structurally repeated items, keeping
the first occurrence of each (the Python version keys on repr, which is
structural equality for these dataclasses). -/
def dedupe (items : List Req) : List Req := dedupeGo [] items

/-- A token resolver: maps a token to (code, raw, kind). -/
def Resolver := Str → Option Str × Str × Str

/-- One split level of parse_req_text: if the separator occurs, split, parse
every part with the given recursive parser, and build the combined node only
when every part is valid; otherwise signal fall-through with none. -/
def levelSplit (rec : Str → Option Req) (t : Str) (sep : Char)
    (mk : List Req → Req) : Option Req :=
  if sep ∈ t then
    let items := (split_top t sep).map rec
    if items.all is_valid_split_item then some (mk (dedupe (items.filterMap id)))
    else none
  else none

/-- One unfolding of parse_req_text with the recursive occurrences abstracted
as rec: empty text gives none; otherwise normalize and repair artifacts, try
the OR split, then the AND split, then resolve the whole text as a leaf. -/
def parseStep (resolve : Resolver) (rec : Str → Option Req) (text : Str) :
    Option Req :=
  if text = [] then none
  else
    let t := fixArtifacts (normalize_text text)
    match levelSplit rec t '/' Req.orR with
    | some res => some res
    | none =>
      match levelSplit rec t '+' Req.anR with
      | some res => some res
      | none => some (Req.leaf (resolve t).1 (resolve t).2.1 (resolve t).2.2)

/-- Fueled recursive parser; parts of a split are strictly shorter than the
normalized text, so fuel equal to the text length plus one always suffices. -/
def parseF (resolve : Resolver) : Nat → Str → Option Req
  | 0, _ => none
  | fuel + 1, text => parseStep resolve (parseF resolve fuel) text

/-- parse_req_text from utils/req_parser.py. -/
def parse_req_text (resolve : Resolver) (text : Str) : Option Req :=
  parseF resolve (text.length + 1) text


-- ---------------------------------------------------------------------------
-- Token resolver (utils/course_catalog.py)
-- ---------------------------------------------------------------------------

/-- A catalog course as the resolver uses it: code and name.  The source
dataclass carries further UI metadata fields (credits, prereq and coreq text,
study year, instructor, weekly hours, course type), none of which the
resolver reads. -/
structure CatalogCourse where
  code : Str
  name : Str
deriving DecidableEq

/-- External-classification rules (utils/external_rules.py): a set of exact
normalized strings plus a list of regex patterns.  Regex matching itself is
outside the embedding; each compiled pattern is abstracted as the predicate
"this pattern finds a match in the given string". -/
structure ExternalRules where
  exact : List Str
  patterns : List (Str → Bool)

/-- normalize_name_key from utils/course_catalog.py: strip, remove double and
single quote characters, collapse whitespace runs. -/
def normalize_name_key (s : Str) : Str :=
  collapseWS ((pyStrip s).filter (fun c => !(c == Char.ofNat 34 || c == Char.ofNat 39)))

/-- Python str.isdigit restricted to ASCII digits: non-empty and all digits. -/
def pyIsdigit (t : Str) : Bool := !t.isEmpty && t.all Char.isDigit

/-- is_external_token from utils/course_catalog.py. -/
def is_external_token (token : Str) (rules : ExternalRules) : Bool :=
  let t := normalize_name_key token
  t ∈ rules.exact || rules.patterns.any (fun rx => rx t)

/-- The code-to-course dict built by build_resolver. -/
def by_code (catalog : List CatalogCourse) : List (Str × CatalogCourse) :=
  catalog.map (fun c => (c.code, c))

/-- The normalized-name-to-code dict built by build_resolver. -/
def by_name (catalog : List CatalogCourse) : List (Str × Str) :=
  catalog.map (fun c => (normalize_name_key c.name, c.code))

/-- The alias dict with keys normalized and canonical targets stripped, as
build_resolver prepares it from AliasRules.alias_to_canonical. -/
def alias_map_norm (alias_rules : List (Str × Str)) : List (Str × Str) :=
  alias_rules.map (fun p => (normalize_name_key p.1, pyStrip p.2))

/-- Step 4 of the resolver (external classification) and the final
unresolved fallback. -/
def resolverExt (external_rules : ExternalRules) (token t : Str) :
    Option Str × Str × Str :=
  if is_external_token t external_rules then (none, token, "external".data)
  else (none, token, "unresolved".data)

/-- Steps 1 to 4 of the resolver, reached when the alias step does not
decide the token. -/
def resolverRest (catalog : List CatalogCourse) (external_rules : ExternalRules)
    (token t : Str) : Option Str × Str × Str :=
  -- 1) Direct code match
  if (dlookup (by_code catalog) t).isSome then
    (some t, token, "internal".data)
  -- 2) Numeric-looking code that is not in the catalog
  else if pyIsdigit t && decide (5 ≤ t.length) then
    (none, token, "unresolved".data)
  else
    -- 3) Exact name match (a falsy code falls through to external rules)
    match dlookup (by_name catalog) t with
    | some code =>
      if code = [] then resolverExt external_rules token t
      else (some code, token, "internal".data)
    | none => resolverExt external_rules token t

/-- build_resolver from utils/course_catalog.py.  The returned resolver
follows the source's early-return chain: alias lookup (a non-empty canonical
target always decides the result), direct code match, the all-digit
length-at-least-5 heuristic, exact name match, external classification, and
finally unresolved.  In the source external_rules and alias_rules are
optional arguments; they are modelled as always supplied, with absence
expressed by empty rule sets. -/
def build_resolver (catalog : List CatalogCourse) (external_rules : ExternalRules)
    (alias_rules : List (Str × Str)) : Resolver :=
  fun token =>
    let t := normalize_name_key token
    -- 0) Alias mapping (before any other resolution); a falsy canonical
    --    target falls through to the remaining steps, as in the source.
    match dlookup (alias_map_norm alias_rules) t with
    | some canon =>
      if canon = [] then
        resolverRest catalog external_rules token t
      else
        let canon_norm := normalize_name_key canon
        if pyIsdigit canon_norm then
          -- canonical looks like a pure code: treat as code
          if (dlookup (by_code catalog) canon_norm).isSome then
            (some canon_norm, token, "internal".data)
          else
            (none, token, "unresolved".data)
        else
          -- otherwise treat canonical as a course name
          match dlookup (by_name catalog) canon_norm with
          | some code =>
            if code = [] then (none, token, "unresolved".data)
            else (some code, token, "internal".data)
          | none => (none, token, "unresolved".data)
    | none => resolverRest catalog external_rules token t

-- ---------------------------------------------------------------------------
-- Constraint compiler (services/solver.py)
-- ---------------------------------------------------------------------------

/-- The variable alphabet of the model: binary placement variables
x[course][semester], the binary satisfaction variables created by the Tseitin
encoding (identified by target course, tree position path, and semester,
replacing PuLP's name-based identity), and the auxiliary last-semester
variable of the objective. -/
inductive SVar where
  | place (course : Str) (sem : Int)
  | zsat (course : Str) (path : List Nat) (sem : Int)
  | lastSem
deriving DecidableEq

/-- A linear expression: a list of coefficient-variable terms plus a
constant, the shallow embedding of a PuLP affine expression. -/
structure LinExpr where
  terms : List (Int × SVar)
  const : Int
deriving DecidableEq

/-- Value of a linear expression under a variable assignment. -/
def LinExpr.eval (σ : SVar → Int) (e : LinExpr) : Int :=
  (e.terms.map (fun p => p.1 * σ p.2)).sum + e.const

/-- The expression consisting of a single variable. -/
def evar (v : SVar) : LinExpr := ⟨[(1, v)], 0⟩

/-- A constant expression. -/
def econst (k : Int) : LinExpr := ⟨[], k⟩

/-- Sum of a list of variables plus a constant (a PuLP lpSum). -/
def esum (vs : List SVar) (k : Int) : LinExpr := ⟨vs.map (fun v => (1, v)), k⟩

/-- A linear constraint between two expressions. -/
inductive Constr where
  | le (a b : LinExpr)
  | ge (a b : LinExpr)
  | eq (a b : LinExpr)
deriving DecidableEq

/-- Whether a constraint holds under an assignment. -/
def Constr.holds (σ : SVar → Int) : Constr → Bool
  | .le a b => decide (a.eval σ ≤ b.eval σ)
  | .ge a b => decide (b.eval σ ≤ a.eval σ)
  | .eq a b => a.eval σ == b.eval σ

/-- Whether every constraint in a list holds under an assignment. -/
def holdsAll (σ : SVar → Int) (l : List Constr) : Bool := l.all (Constr.holds σ)

/-- scheduled_before_expr from services/solver.py: the sum of the placement
variables of course_code over its allowed semesters strictly before s. -/
def scheduled_before_expr (allowed : List (Str × List Int)) (course_code : Str)
    (s : Int) : LinExpr :=
  esum ((((dlookup allowed course_code).getD []).filter (fun t => t < s)).map
    (fun t => SVar.place course_code t)) 0

/-- The satisfaction variables of the n children of the node at the given
path, starting at child index i. -/
def zfrom (course : Str) (path : List Nat) (s : Int) : Nat → Nat → List SVar
  | _, 0 => []
  | i, n + 1 => SVar.zsat course (path ++ [i]) s :: zfrom course path s (i + 1) n

mutual
/-- The constraints emitted by the sat(...) encoder of
add_ir_prereq_constraints for one node at one semester: a leaf with no code
or with a code outside the allowed-semesters universe forces its satisfaction
variable to 1; an internal in-plan leaf pins it to the scheduled-before sum;
an AND node is bounded above by every child and below by the children sum
minus (count - 1), the empty AND being forced to 1; an OR node is bounded
below by every child and above by the children sum, the empty OR being forced
to 1.  Children constraints are emitted before the parent links, as in the
source. -/
def sat_emit (allowed : List (Str × List Int)) (target : Str) :
    Req → List Nat → Int → List Constr
  | .leaf code _ _, path, s =>
    match code with
    | none => [Constr.eq (evar (SVar.zsat target path s)) (econst 1)]
    | some c =>
      if (dlookup allowed c).isNone then
        [Constr.eq (evar (SVar.zsat target path s)) (econst 1)]
      else
        [Constr.le (evar (SVar.zsat target path s)) (scheduled_before_expr allowed c s),
         Constr.ge (evar (SVar.zsat target path s)) (scheduled_before_expr allowed c s)]
  | .anR items, path, s =>
    match items with
    | [] => [Constr.eq (evar (SVar.zsat target path s)) (econst 1)]
    | _ :: _ =>
      sat_emit_list allowed target items path 0 s
        ++ (zfrom target path s 0 items.length).map
            (fun cz => Constr.le (evar (SVar.zsat target path s)) (evar cz))
        ++ [Constr.ge (evar (SVar.zsat target path s))
              (esum (zfrom target path s 0 items.length) (1 - (items.length : Int)))]
  | .orR items, path, s =>
    match items with
    | [] => [Constr.eq (evar (SVar.zsat target path s)) (econst 1)]
    | _ :: _ =>
      sat_emit_list allowed target items path 0 s
        ++ (zfrom target path s 0 items.length).map
            (fun cz => Constr.ge (evar (SVar.zsat target path s)) (evar cz))
        ++ [Constr.le (evar (SVar.zsat target path s))
              (esum (zfrom target path s 0 items.length) 0)]
/-- Constraints of a list of children, the i-th child at path extended by its
index. -/
def sat_emit_list (allowed : List (Str × List Int)) (target : Str) :
    List Req → List Nat → Nat → Int → List Constr
  | [], _, _, _ => []
  | ch :: rest, path, i, s =>
    sat_emit allowed target ch (path ++ [i]) s
      ++ sat_emit_list allowed target rest path (i + 1) s
end

mutual
/-- The boolean value (as 0/1, or the raw before-sum for an in-plan leaf) of
a requirement subtree at semester s under a placement assignment: leaves with
no code or a code outside the plan count as satisfied; an in-plan leaf is
worth its scheduled-before sum; an AND is satisfied when all children are; an
OR when some child is, the empty OR counting as satisfied. -/
def satVal (allowed : List (Str × List Int)) (σ : SVar → Int) : Req → Int → Int
  | .leaf none _ _, _ => 1
  | .leaf (some c) _ _, s =>
    match dlookup allowed c with
    | none => 1
    | some _ => (scheduled_before_expr allowed c s).eval σ
  | .anR items, s => if satAll allowed σ items s then 1 else 0
  | .orR items, s =>
    match items with
    | [] => 1
    | _ :: _ => if satAny allowed σ items s then 1 else 0
/-- All children have value 1. -/
def satAll (allowed : List (Str × List Int)) (σ : SVar → Int) :
    List Req → Int → Bool
  | [], _ => true
  | ch :: rest, s => (satVal allowed σ ch s == 1) && satAll allowed σ rest s
/-- Some child has value 1. -/
def satAny (allowed : List (Str × List Int)) (σ : SVar → Int) :
    List Req → Int → Bool
  | [], _ => false
  | ch :: rest, s => (satVal allowed σ ch s == 1) || satAny allowed σ rest s
end

mutual
/-- Whether, under the assignment, every node's satisfaction variable equals
the boolean value of its subtree (paths locate the nodes). -/
def allZ (allowed : List (Str × List Int)) (σ : SVar → Int) (target : Str) :
    Req → List Nat → Int → Bool
  | t@(.leaf _ _ _), path, s => σ (SVar.zsat target path s) == satVal allowed σ t s
  | t@(.anR items), path, s =>
    (σ (SVar.zsat target path s) == satVal allowed σ t s)
      && allZL allowed σ target items path 0 s
  | t@(.orR items), path, s =>
    (σ (SVar.zsat target path s) == satVal allowed σ t s)
      && allZL allowed σ target items path 0 s
/-- allZ for each child of a node, indices starting at i. -/
def allZL (allowed : List (Str × List Int)) (σ : SVar → Int) (target : Str) :
    List Req → List Nat → Nat → Int → Bool
  | [], _, _, _ => true
  | ch :: rest, path, i, s =>
    allZ allowed σ target ch (path ++ [i]) s
      && allZL allowed σ target rest path (i + 1) s
end

-- ---------------------------------------------------------------------------
-- Warnings (services/solver.py)
-- ---------------------------------------------------------------------------

/-- SolverWarning from services/solver.py: the course being scheduled, the
raw token text, and the classification kind. -/
structure SolverWarning where
  course : Str
  raw : Str
  kind : Str
deriving DecidableEq

/-- The warning-collection state threaded through one
add_ir_prereq_constraints call: the emitted warnings in order, plus the set
of already-seen (course, raw, kind) triples used for deduplication. -/
structure WState where
  warns : List SolverWarning
  seen : List (Str × Str × Str)

/-- The _warn helper of add_ir_prereq_constraints: strip the raw text and
skip empty text, clamp the kind to the three known kinds, and append the
warning unless its (course, raw, kind) triple was already seen. -/
def warnStep (target : Str) (st : WState) (rawArg kindArg : Str) : WState :=
  let r := pyStrip rawArg
  if r = [] then st
  else
    let k := if kindArg = "external".data ∨ kindArg = "unresolved".data
        ∨ kindArg = "missing_course".data then kindArg else "unresolved".data
    if (target, r, k) ∈ st.seen then st
    else ⟨st.warns ++ [⟨target, r, k⟩], st.seen ++ [(target, r, k)]⟩

mutual
/-- The warnings emitted by one traversal of the tree by the sat(...)
encoder, in traversal order: a codeless leaf warns with its stripped raw text
and its kind clamped to external/unresolved; an internal leaf whose code is
not in the allowed-semesters universe warns as missing_course with the code
as raw text; inner nodes traverse their children in order.  Constraint
emission and warning emission are independent, so the single source traversal
is modelled by this dedicated pass. -/
def warnPass (allowed : List (Str × List Int)) (target : Str) : Req → WState → WState
  | .leaf none rawv kindv, st =>
    warnStep target st (pyStrip rawv)
      (if kindv = "external".data ∨ kindv = "unresolved".data then kindv
       else "unresolved".data)
  | .leaf (some c) _ _, st =>
    if (dlookup allowed c).isNone then warnStep target st c "missing_course".data
    else st
  | .anR items, st => warnPassL allowed target items st
  | .orR items, st => warnPassL allowed target items st
/-- warnPass over a list of children, left to right. -/
def warnPassL (allowed : List (Str × List Int)) (target : Str) :
    List Req → WState → WState
  | [], st => st
  | ch :: rest, st => warnPassL allowed target rest (warnPass allowed target ch st)
end

/-- add_ir_prereq_constraints from services/solver.py, for one target course
and its requirement tree: for every allowed semester s of the target, emit
the Tseitin encoding of the tree at s followed by the root link
x[target][s] less-or-equal sat(tree, s); warnings are collected across all
semesters with one shared seen-set, so repeated triples are suppressed. -/
def add_ir_prereq_constraints (allowed : List (Str × List Int)) (target : Str)
    (tree : Req) : List Constr × List SolverWarning :=
  let sems := (dlookup allowed target).getD []
  let cons := sems.flatMap (fun s =>
    sat_emit allowed target tree [] s
      ++ [Constr.le (evar (SVar.place target s)) (evar (SVar.zsat target [] s))])
  let final := sems.foldl (fun st _s => warnPass allowed target tree st) ⟨[], []⟩
  (cons, final.warns)

-- ---------------------------------------------------------------------------
-- Model builder (services/solver.py build_model)
-- ---------------------------------------------------------------------------

/-- The always-present exactly-once constraints: for each course the sum of
its placement variables over its allowed semesters equals 1. -/
def one_sem_constraints (courses : List Str) (allowed : List (Str × List Int)) :
    List Constr :=
  courses.map (fun c =>
    Constr.eq (esum (((dlookup allowed c).getD []).map (fun s => SVar.place c s)) 0)
      (econst 1))

/-- Insertion of an integer into a sorted list. -/
def insSorted (x : Int) : List Int → List Int
  | [] => [x]
  | y :: ys => if x ≤ y then x :: y :: ys else y :: insSorted x ys

/-- Insertion sort for integers, modelling Python sorted(...). -/
def sortInts (l : List Int) : List Int := l.foldr insSorted []

/-- Worker for dedupInts carrying the set of already-seen values. -/
def dedupIntsGo (seen : List Int) : List Int → List Int
  | [] => []
  | x :: rest =>
    if x ∈ seen then dedupIntsGo seen rest
    else x :: dedupIntsGo (seen ++ [x]) rest

/-- Removal of duplicates keeping first occurrences (the model only sorts the
result, so which occurrence survives is immaterial). -/
def dedupInts (l : List Int) : List Int := dedupIntsGo [] l

/-- The sorted set of all semesters appearing in any allowed-semester list,
as build_model computes for the credit-limit constraints. -/
def modelSemesters (allowed : List (Str × List Int)) : List Int :=
  sortInts (dedupInts ((allowed.map (fun p => p.2)).flatten))

/-- The optional credit-limit constraints: for every semester in the model
universe, the credit-weighted sum of placements of courses allowed in that
semester is at most the semester's cap, defaulting to 9999. -/
def credit_constraints (courses : List Str) (allowed : List (Str × List Int))
    (credits : List (Str × Int)) (max_credits_per_semester : List (Int × Int)) :
    List Constr :=
  (modelSemesters allowed).map (fun s =>
    Constr.le
      ⟨(courses.filter (fun c => ((dlookup allowed c).getD []).contains s)).map
          (fun c => ((dlookup credits c).getD 0, SVar.place c s)), 0⟩
      (econst ((dlookup max_credits_per_semester s).getD 9999)))

/-- The prerequisite constraints of build_model: for each course in order
that has a requirement tree, the constraints of add_ir_prereq_constraints; a
course with no tree entry contributes nothing. -/
def prereq_constraints (courses : List Str) (prereq_trees : List (Str × Req))
    (allowed : List (Str × List Int)) : List Constr :=
  courses.flatMap (fun c =>
    match dlookup prereq_trees c with
    | none => []
    | some tree => (add_ir_prereq_constraints allowed c tree).1)

/-- The warnings of build_model, accumulated per course in course order. -/
def prereq_warnings (courses : List Str) (prereq_trees : List (Str × Req))
    (allowed : List (Str × List Int)) : List SolverWarning :=
  courses.flatMap (fun c =>
    match dlookup prereq_trees c with
    | none => []
    | some tree => (add_ir_prereq_constraints allowed c tree).2)

/-- The semester-number linear expression of a course (_sem_expr). -/
def sem_expr (allowed : List (Str × List Int)) (c : Str) : LinExpr :=
  ⟨((dlookup allowed c).getD []).map (fun s => (s, SVar.place c s)), 0⟩

/-- The constraints of the minimize-last-semester objective: the auxiliary
variable is at least 1 (its PuLP lower bound, modelled as a constraint) and
bounds every course's semester expression from above.  The objective
expressions themselves (last_sem, or the sum of semester values) add no
constraints and are not part of the constraint list. -/
def last_sem_constraints (courses : List Str) (allowed : List (Str × List Int)) :
    List Constr :=
  Constr.ge (evar SVar.lastSem) (econst 1)
    :: courses.map (fun c => Constr.le (sem_expr allowed c) (evar SVar.lastSem))

/-- build_model from services/solver.py.  A course whose allowed-semester
list is missing or empty makes variable creation fail fast with the source's
ValueError message (for the first such course, as the Python loop raises);
otherwise the model consists of the exactly-once constraints, the optional
credit-limit constraints, the optional prerequisite constraints together with
their warnings, and the optional objective-linking constraints. -/
def build_model (courses : List Str) (prereq_trees : List (Str × Req))
    (allowed : List (Str × List Int)) (credits : List (Str × Int))
    (max_credits_per_semester : List (Int × Int))
    (use_credit_limits use_prereqs_ir minimize_last_semester : Bool) :
    Except Str (List Constr × List SolverWarning) :=
  match courses.find? (fun c => ((dlookup allowed c).getD []).isEmpty) with
  | some c =>
    .error ("Course ".data ++ c ++ " has no allowed semesters (offerings).".data)
  | none =>
    .ok
      (one_sem_constraints courses allowed
        ++ (if use_credit_limits then
              credit_constraints courses allowed credits max_credits_per_semester
            else [])
        ++ (if use_prereqs_ir then prereq_constraints courses prereq_trees allowed
            else [])
        ++ (if minimize_last_semester then last_sem_constraints courses allowed
            else []),
       if use_prereqs_ir then prereq_warnings courses prereq_trees allowed else [])

-- ---------------------------------------------------------------------------
-- Pre-solve validation (services/validation.py)
-- ---------------------------------------------------------------------------

/-- The hint emitted when the plan has no courses. -/
def no_courses_hint : Str :=
  "This plan has no courses yet. Add courses before solving.".data

/-- Rule 1 hint: the course has no allowed semesters. -/
def rule1_hint (c : Str) : Str :=
  "Course \"".data ++ c
    ++ "\" has no allowed semesters (offerings). Add at least one offering.".data

/-- Rule 2 hint: a single course exceeds the per-semester credit limit. -/
def rule2_hint (c : Str) (c_credits max_limit : Int) : Str :=
  "Course \"".data ++ c ++ "\" is ".data ++ (toString c_credits).data
    ++ " credits but max per semester is ".data ++ (toString max_limit).data
    ++ ". Increase the max or adjust the course.".data

/-- Rule 3 hint: total credits exceed total capacity. -/
def rule3_hint (total_credits total_semesters max_limit capacity : Int) : Str :=
  "Total credits in plan (".data ++ (toString total_credits).data
    ++ ") exceed capacity (".data ++ (toString total_semesters).data
    ++ " semesters x ".data ++ (toString max_limit).data ++ " max = ".data
    ++ (toString capacity).data
    ++ "). Increase total semesters / max credits, or reduce credits.".data

/-- The hint emitted when some course has no known credit value and the
capacity check is therefore incomplete. -/
def unknown_credits_hint : Str :=
  "Some courses have missing/invalid credit values; capacity checks may be incomplete.".data

/-- Maximum of a list of integers with head as the seed (Python max of a
non-empty collection). -/
def maxInts : List Int → Int
  | [] => 0
  | x :: xs => xs.foldl max x

/-- Minimum of a list of integers with head as the seed (Python min of a
non-empty collection). -/
def minInts : List Int → Int
  | [] => 0
  | x :: xs => xs.foldl min x

/-- Sum of the known credit values over the course list, skipping courses
with no credit entry (whose presence is reported separately). -/
def sumKnownCredits (courses : List Str) (credits : List (Str × Int)) : Int :=
  courses.foldl (fun acc c =>
    match dlookup credits c with
    | some cc => acc + cc
    | none => acc) 0

/-- Rule 1 of validate_inputs_before_solve: one hint per course with a
missing or empty allowed-semester list, in course order. -/
def rule1_hints (courses : List Str) (allowed : List (Str × List Int)) : List Str :=
  (courses.filter (fun c => ((dlookup allowed c).getD []).isEmpty)).map rule1_hint

/-- The conservative per-semester credit bound of validate_inputs_before_solve:
the minimum of the per-semester limits, when any exist. -/
def valMaxLimit (max_by_sem : List (Int × Int)) : Option Int :=
  if max_by_sem.map (fun p => p.2) = [] then none
  else some (minInts (max_by_sem.map (fun p => p.2)))

/-- The semester-count bound of validate_inputs_before_solve: the maximum
semester key, when any exist. -/
def valTotalSemesters (max_by_sem : List (Int × Int)) : Option Int :=
  if max_by_sem.map (fun p => p.1) = [] then none
  else some (maxInts (max_by_sem.map (fun p => p.1)))

/-- Rule 2 of validate_inputs_before_solve: one hint per course whose credit
value exceeds the (minimum) per-semester limit, when that limit is positive. -/
def rule2_hints (courses : List Str) (credits : List (Str × Int))
    (max_limit : Option Int) : List Str :=
  match max_limit with
  | some ml =>
    if 0 < ml then
      courses.filterMap (fun c =>
        match dlookup credits c with
        | some cc => if ml < cc then some (rule2_hint c cc ml) else none
        | none => none)
    else []
  | none => []

/-- Rule 3 of validate_inputs_before_solve: the total-capacity hint, or the
missing-credit-values hint, when both bounds exist and are positive. -/
def rule3_hints (courses : List Str) (credits : List (Str × Int))
    (total_semesters max_limit : Option Int) : List Str :=
  match total_semesters, max_limit with
  | some ts, some ml =>
    if 0 < ts ∧ 0 < ml then
      let total_credits := sumKnownCredits courses credits
      let unknown := courses.any (fun c => (dlookup credits c).isNone)
      let capacity := ts * ml
      if capacity < total_credits then [rule3_hint total_credits ts ml capacity]
      else if unknown then [unknown_credits_hint]
      else []
    else []
  | _, _ => []

/-- validate_inputs_before_solve from services/validation.py, with the input
dictionary unpacked into its components.  Credit values are modelled as
integers, so the source's _safe_int conversion is the identity on present
values and none on absent ones. -/
def validate_inputs_before_solve (courses : List Str)
    (allowed : List (Str × List Int)) (credits : List (Str × Int))
    (max_by_sem : List (Int × Int)) : List Str :=
  if courses = [] then [no_courses_hint]
  else
    rule1_hints courses allowed
      ++ rule2_hints courses credits (valMaxLimit max_by_sem)
      ++ rule3_hints courses credits (valTotalSemesters max_by_sem)
          (valMaxLimit max_by_sem)

-- ---------------------------------------------------------------------------
-- Declarative descriptions used by the claims
-- ---------------------------------------------------------------------------

mutual
/-- The leaves of a requirement tree in traversal order, as
(code, raw, kind) triples. -/
def leavesOf : Req → List (Option Str × Str × Str)
  | .leaf c r k => [(c, r, k)]
  | .anR items => leavesOfL items
  | .orR items => leavesOfL items
/-- leavesOf over a list of children, left to right. -/
def leavesOfL : List Req → List (Option Str × Str × Str)
  | [] => []
  | t :: ts => leavesOf t ++ leavesOfL ts
end

/-- The subtree of a requirement tree at a child-index path. -/
def subtreeAt : Req → List Nat → Option Req
  | t, [] => some t
  | .leaf _ _ _, _ :: _ => none
  | .anR items, i :: p =>
    match items[i]? with
    | none => none
    | some ch => subtreeAt ch p
  | .orR items, i :: p =>
    match items[i]? with
    | none => none
    | some ch => subtreeAt ch p

/-- The warning a single leaf gives rise to during compilation for the given
target course, if any: a codeless leaf warns with its stripped raw text
(skipped when empty) and its kind clamped to external/unresolved; an internal
leaf outside the allowed-semesters universe warns as missing_course; an
in-plan internal leaf warns never.  The double strip on the raw text mirrors
the source, where the leaf case strips before calling _warn, which strips
again. -/
def leafWarning (allowed : List (Str × List Int)) (target : Str) :
    Option Str × Str × Str → Option SolverWarning
  | (none, rawv, kindv) =>
    let r := pyStrip (pyStrip rawv)
    if r = [] then none
    else some ⟨target, r,
      if kindv = "external".data ∨ kindv = "unresolved".data then kindv
      else "unresolved".data⟩
  | (some c, _, _) =>
    if (dlookup allowed c).isNone then
      let r := pyStrip c
      if r = [] then none else some ⟨target, r, "missing_course".data⟩
    else none

/-- The triple key of a warning, as used by the deduplication set. -/
def wkey (w : SolverWarning) : Str × Str × Str := (w.course, w.raw, w.kind)

/-- First-occurrence deduplication of warnings whose keys are not already in
seen. -/
def dedupWarnGo (seen : List (Str × Str × Str)) : List SolverWarning → List SolverWarning
  | [] => []
  | w :: rest =>
    if wkey w ∈ seen then dedupWarnGo seen rest
    else w :: dedupWarnGo (seen ++ [wkey w]) rest

/-- First-occurrence deduplication of a warning list by (course, raw, kind). -/
def dedupWarns (l : List SolverWarning) : List SolverWarning := dedupWarnGo [] l

/-- The variables occurring in a linear expression. -/
def LinExpr.varsOf (e : LinExpr) : List SVar := e.terms.map (fun p => p.2)

/-- The variables occurring in a constraint. -/
def Constr.varsOf : Constr → List SVar
  | .le a b => a.varsOf ++ b.varsOf
  | .ge a b => a.varsOf ++ b.varsOf
  | .eq a b => a.varsOf ++ b.varsOf

/-- Whether a variable is a satisfaction variable of the given course. -/
def isZsatOf (c : Str) : SVar → Bool
  | .zsat course _ _ => course == c
  | _ => false

/-- Whether a variable is a satisfaction variable of any course. -/
def isZsatVar : SVar → Bool
  | .zsat _ _ _ => true
  | _ => false

/-- Whether a constraint mentions a satisfaction variable of the given
course: the shape of a prerequisite constraint. -/
def mentionsZOf (c : Str) (con : Constr) : Bool := con.varsOf.any (isZsatOf c)

/-- Whether a constraint mentions any satisfaction variable. -/
def mentionsAnyZ (con : Constr) : Bool := con.varsOf.any isZsatVar

-- ===========================================================================
-- Theorems
-- ===========================================================================

mutual
/-- Induction over requirement trees with a pointwise hypothesis for children. -/
theorem Req.ind (motive : Req → Prop)
    (hleaf : ∀ c r k, motive (.leaf c r k))
    (hand : ∀ items, (∀ t ∈ items, motive t) → motive (.anR items))
    (hor : ∀ items, (∀ t ∈ items, motive t) → motive (.orR items)) :
    ∀ t, motive t
  | .leaf c r k => hleaf c r k
  | .anR items => hand items (Req.indL motive hleaf hand hor items)
  | .orR items => hor items (Req.indL motive hleaf hand hor items)
theorem Req.indL (motive : Req → Prop)
    (hleaf : ∀ c r k, motive (.leaf c r k))
    (hand : ∀ items, (∀ t ∈ items, motive t) → motive (.anR items))
    (hor : ∀ items, (∀ t ∈ items, motive t) → motive (.orR items)) :
    ∀ l : List Req, ∀ t ∈ l, motive t
  | [] => by intro t h; exact absurd h (List.not_mem_nil t)
  | x :: xs => by
    intro t h
    rcases List.mem_cons.mp h with h1 | h2
    · exact h1 ▸ Req.ind motive hleaf hand hor x
    · exact Req.indL motive hleaf hand hor xs t h2
end

-- Length lemmas: normalization and splitting never lengthen the text, and
-- split parts are strictly shorter; these justify the fuel discipline.

theorem dropWhile_length_le (p : Char → Bool) : ∀ l : Str, (l.dropWhile p).length ≤ l.length := by
  intro l
  induction l with
  | nil => simp
  | cons c rest ih =>
    rw [List.dropWhile_cons]
    split
    · exact Nat.le_succ_of_le ih
    · simp

theorem pyStrip_length_le (s : Str) : (pyStrip s).length ≤ s.length := by
  unfold pyStrip
  calc ((s.dropWhile pySpace).reverse.dropWhile pySpace).reverse.length
      = ((s.dropWhile pySpace).reverse.dropWhile pySpace).length := List.length_reverse _
    _ ≤ (s.dropWhile pySpace).reverse.length := dropWhile_length_le _ _
    _ = (s.dropWhile pySpace).length := List.length_reverse _
    _ ≤ s.length := dropWhile_length_le _ _

theorem collapseGo_length_le : ∀ (b : Bool) (s : Str), (collapseGo b s).length ≤ s.length := by
  intro b s
  induction s generalizing b with
  | nil => simp [collapseGo]
  | cons c rest ih =>
    simp only [collapseGo]
    split
    · split
      · exact Nat.le_succ_of_le (ih true)
      · simpa using Nat.succ_le_succ (ih true)
    · simpa using Nat.succ_le_succ (ih false)

theorem collapseWS_length_le (s : Str) : (collapseWS s).length ≤ s.length :=
  collapseGo_length_le false s

theorem strHasPrefix_length : ∀ pat s : Str, strHasPrefix pat s = true → pat.length ≤ s.length := by
  intro pat
  induction pat with
  | nil => intro s _; simp
  | cons p ps ih =>
    intro s h
    cases s with
    | nil => simp [strHasPrefix] at h
    | cons c cs =>
      simp only [strHasPrefix, Bool.and_eq_true] at h
      simpa using Nat.succ_le_succ (ih cs h.2)

theorem replaceAllF_length_le (pat rep : Str) (hrl : rep.length ≤ pat.length) :
    ∀ (fuel : Nat) (s : Str), (replaceAllF pat rep fuel s).length ≤ s.length := by
  intro fuel
  induction fuel with
  | zero =>
    intro s
    cases s with
    | nil => simp [replaceAllF]
    | cons c rest => simp [replaceAllF]
  | succ f ih =>
    intro s
    cases s with
    | nil => simp [replaceAllF]
    | cons c rest =>
      simp only [replaceAllF]
      split
      · rename_i hcond
        simp only [Bool.and_eq_true, Bool.not_eq_true'] at hcond
        have hple : pat.length ≤ (c :: rest).length := strHasPrefix_length pat _ hcond.1
        have hrec := ih ((c :: rest).drop pat.length)
        have hdrop : ((c :: rest).drop pat.length).length = (c :: rest).length - pat.length :=
          List.length_drop _ _
        rw [List.length_append]
        omega
      · have hrec := ih rest
        simp only [List.length_cons]
        omega

theorem replaceAll_length_le (pat rep s : Str) (hrl : rep.length ≤ pat.length) :
    (replaceAll pat rep s).length ≤ s.length :=
  replaceAllF_length_le pat rep hrl s.length s

theorem fixArtifacts_length_le (s : Str) : (fixArtifacts s).length ≤ s.length := by
  unfold fixArtifacts
  calc (replaceAll " + +C".data " C++".data (replaceAll "++C".data "C++".data s)).length
      ≤ (replaceAll "++C".data "C++".data s).length :=
        replaceAll_length_le _ _ _ (by decide)
    _ ≤ s.length := replaceAll_length_le _ _ _ (by decide)

theorem normalize_text_length_le (s : Str) : (normalize_text s).length ≤ s.length := by
  unfold normalize_text
  calc (collapseWS ((pyStrip s).map (fun c => if c = '–' then '-' else c))).length
      ≤ ((pyStrip s).map (fun c => if c = '–' then '-' else c)).length := collapseWS_length_le _
    _ = (pyStrip s).length := List.length_map _ _
    _ ≤ s.length := pyStrip_length_le s

theorem splitOnChar_ne_nil (sep : Char) : ∀ l : Str, splitOnChar sep l ≠ [] := by
  intro l
  cases l with
  | nil => simp [splitOnChar]
  | cons c rest =>
    simp only [splitOnChar]
    cases h : splitOnChar sep rest with
    | nil => simp
    | cons hd tl =>
      by_cases hc : c == sep
      · simp [hc]
      · simp [hc]

theorem splitOnChar_piece_le (sep : Char) :
    ∀ (l : Str) (piece : Str), piece ∈ splitOnChar sep l → piece.length ≤ l.length := by
  intro l
  induction l with
  | nil =>
    intro piece h
    simp only [splitOnChar, List.mem_singleton] at h
    simp [h]
  | cons c rest ih =>
    intro piece h
    simp only [splitOnChar] at h
    cases hs : splitOnChar sep rest with
    | nil => exact absurd hs (splitOnChar_ne_nil sep rest)
    | cons hd tl =>
      rw [hs] at h
      by_cases hc : c == sep
      · simp only [hc, if_true] at h
        rcases List.mem_cons.mp h with h1 | h2
        · simp [h1]
        · have : piece ∈ splitOnChar sep rest := by rw [hs]; exact h2
          exact Nat.le_succ_of_le (ih piece this)
      · simp only [hc, if_false] at h
        rcases List.mem_cons.mp h with h1 | h2
        · have : hd ∈ splitOnChar sep rest := by rw [hs]; exact List.mem_cons_self _ _
          have hle := ih hd this
          subst h1
          simpa using Nat.succ_le_succ hle
        · have : piece ∈ splitOnChar sep rest := by rw [hs]; exact List.mem_cons_of_mem _ h2
          exact Nat.le_succ_of_le (ih piece this)

theorem splitOnChar_piece_lt (sep : Char) :
    ∀ (l : Str), sep ∈ l → ∀ piece ∈ splitOnChar sep l, piece.length < l.length := by
  intro l
  induction l with
  | nil => intro h; exact absurd h (List.not_mem_nil sep)
  | cons c rest ih =>
    intro hmem piece hpc
    simp only [splitOnChar] at hpc
    cases hs : splitOnChar sep rest with
    | nil => exact absurd hs (splitOnChar_ne_nil sep rest)
    | cons hd tl =>
      rw [hs] at hpc
      by_cases hc : c == sep
      · simp only [hc, if_true] at hpc
        rcases List.mem_cons.mp hpc with h1 | h2
        · simp [h1]
        · have : piece ∈ splitOnChar sep rest := by rw [hs]; exact h2
          have := splitOnChar_piece_le sep rest piece this
          simp only [List.length_cons]
          omega
      · have hsep : sep ∈ rest := by
          rcases List.mem_cons.mp hmem with h1 | h2
          · exact absurd (beq_iff_eq.mpr h1.symm) (by simpa using hc)
          · exact h2
        simp only [hc, if_false] at hpc
        rcases List.mem_cons.mp hpc with h1 | h2
        · have : hd ∈ splitOnChar sep rest := by rw [hs]; exact List.mem_cons_self _ _
          have hlt := ih hsep hd this
          subst h1
          simpa using Nat.succ_lt_succ hlt
        · have : piece ∈ splitOnChar sep rest := by rw [hs]; exact List.mem_cons_of_mem _ h2
          have := ih hsep piece this
          simp only [List.length_cons]
          omega

theorem split_top_length_lt (s : Str) (sep : Char) (hsep : sep ∈ s) :
    ∀ p ∈ split_top s sep, p.length < s.length := by
  intro p hp
  unfold split_top at hp
  have hp' := List.mem_of_mem_filter hp
  rcases List.mem_map.mp hp' with ⟨piece, hpiece, rfl⟩
  calc (pyStrip piece).length ≤ piece.length := pyStrip_length_le piece
    _ < s.length := splitOnChar_piece_lt sep s hsep piece hpiece

theorem levelSplit_congr (rec1 rec2 : Str → Option Req) (t : Str) (sep : Char)
    (mk : List Req → Req) (h : sep ∈ t → ∀ p ∈ split_top t sep, rec1 p = rec2 p) :
    levelSplit rec1 t sep mk = levelSplit rec2 t sep mk := by
  unfold levelSplit
  by_cases hsep : sep ∈ t
  · simp only [hsep, if_true]
    rw [List.map_congr_left (h hsep)]
  · simp [hsep]

theorem parseStep_congr (resolve : Resolver) (rec1 rec2 : Str → Option Req) (text : Str)
    (h : ∀ p : Str, p.length < text.length → rec1 p = rec2 p) :
    parseStep resolve rec1 text = parseStep resolve rec2 text := by
  unfold parseStep
  by_cases h0 : text = []
  · simp [h0]
  · simp only [h0, if_false]
    have hlen : (fixArtifacts (normalize_text text)).length ≤ text.length :=
      le_trans (fixArtifacts_length_le _) (normalize_text_length_le _)
    have hOr : levelSplit rec1 (fixArtifacts (normalize_text text)) '/' Req.orR
        = levelSplit rec2 (fixArtifacts (normalize_text text)) '/' Req.orR := by
      apply levelSplit_congr
      intro hsep p hp
      exact h p (lt_of_lt_of_le (split_top_length_lt _ _ hsep p hp) hlen)
    have hAnd : levelSplit rec1 (fixArtifacts (normalize_text text)) '+' Req.anR
        = levelSplit rec2 (fixArtifacts (normalize_text text)) '+' Req.anR := by
      apply levelSplit_congr
      intro hsep p hp
      exact h p (lt_of_lt_of_le (split_top_length_lt _ _ hsep p hp) hlen)
    rw [hOr, hAnd]

theorem parseF_fuel (resolve : Resolver) :
    ∀ f1 f2 (text : Str), text.length < f1 → text.length < f2 →
      parseF resolve f1 text = parseF resolve f2 text := by
  intro f1
  induction f1 with
  | zero => intro f2 text h1 _; omega
  | succ a ih =>
    intro f2 text h1 h2
    cases f2 with
    | zero => omega
    | succ b =>
      simp only [parseF]
      apply parseStep_congr
      intro p hp
      exact ih b p (by omega) (by omega)

/-- parse_req_text satisfies the expected one-step unfolding: it is the parser
body with recursive calls being parse_req_text itself. -/
theorem parse_unfold (resolve : Resolver) (text : Str) :
    parse_req_text resolve text = parseStep resolve (parse_req_text resolve) text := by
  unfold parse_req_text
  conv_lhs => rw [show text.length + 1 = text.length + 1 from rfl]
  simp only [parseF]
  apply parseStep_congr
  intro p hp
  exact parseF_fuel resolve text.length (p.length + 1) p hp (Nat.lt_succ_self _)

-- ---------------------------------------------------------------------------
-- Resolver lemmas
-- ---------------------------------------------------------------------------

theorem resolverExt_inv (ext : ExternalRules) (token t : Str) :
    ((resolverExt ext token t).1.isSome ↔ (resolverExt ext token t).2.2 = "internal".data)
      ∧ (resolverExt ext token t).2.1 = token := by
  unfold resolverExt
  split
  · refine ⟨?_, rfl⟩
    simp only [Option.isSome_none]
    constructor
    · intro h; exact absurd h (by decide)
    · intro h; exact absurd h (by decide)
  · refine ⟨?_, rfl⟩
    simp only [Option.isSome_none]
    constructor
    · intro h; exact absurd h (by decide)
    · intro h; exact absurd h (by decide)

theorem resolverRest_inv (catalog : List CatalogCourse) (ext : ExternalRules)
    (token t : Str) :
    ((resolverRest catalog ext token t).1.isSome
        ↔ (resolverRest catalog ext token t).2.2 = "internal".data)
      ∧ (resolverRest catalog ext token t).2.1 = token := by
  unfold resolverRest
  split
  · exact ⟨by simp, rfl⟩
  · split
    · refine ⟨?_, rfl⟩
      simp only [Option.isSome_none]
      constructor
      · intro h; exact absurd h (by decide)
      · intro h; exact absurd h (by decide)
    · split
      · rename_i code _
        split
        · exact resolverExt_inv ext token t
        · exact ⟨by simp, rfl⟩
      · exact resolverExt_inv ext token t

theorem build_resolver_inv (catalog : List CatalogCourse) (ext : ExternalRules)
    (alias_rules : List (Str × Str)) (token : Str) :
    ((build_resolver catalog ext alias_rules token).1.isSome
        ↔ (build_resolver catalog ext alias_rules token).2.2 = "internal".data)
      ∧ (build_resolver catalog ext alias_rules token).2.1 = token := by
  unfold build_resolver
  dsimp only
  split
  · rename_i canon _
    split
    · exact resolverRest_inv catalog ext token _
    · split
      · split
        · exact ⟨by simp, rfl⟩
        · refine ⟨?_, rfl⟩
          simp only [Option.isSome_none]
          constructor
          · intro h; exact absurd h (by decide)
          · intro h; exact absurd h (by decide)
      · split
        · rename_i code _
          split
          · refine ⟨?_, rfl⟩
            simp only [Option.isSome_none]
            constructor
            · intro h; exact absurd h (by decide)
            · intro h; exact absurd h (by decide)
          · exact ⟨by simp, rfl⟩
        · refine ⟨?_, rfl⟩
          simp only [Option.isSome_none]
          constructor
          · intro h; exact absurd h (by decide)
          · intro h; exact absurd h (by decide)
  · exact resolverRest_inv catalog ext token _

-- ---------------------------------------------------------------------------
-- Parser structure lemmas
-- ---------------------------------------------------------------------------

theorem levelSplit_not_mem {rec : Str → Option Req} {t : Str} {sep : Char}
    {mk : List Req → Req} (h : sep ∉ t) : levelSplit rec t sep mk = none := by
  simp [levelSplit, h]

theorem levelSplit_some_elim {rec : Str → Option Req} {t : Str} {sep : Char}
    {mk : List Req → Req} {res : Req} (h : levelSplit rec t sep mk = some res) :
    sep ∈ t ∧ ((split_top t sep).map rec).all is_valid_split_item = true
      ∧ res = mk (dedupe (((split_top t sep).map rec).filterMap id)) := by
  unfold levelSplit at h
  by_cases hsep : sep ∈ t
  · rw [if_pos hsep] at h
    dsimp only at h
    split at h
    · rename_i hv
      exact ⟨hsep, hv, (Option.some.inj h).symm⟩
    · exact absurd h (by simp)
  · rw [if_neg hsep] at h
    exact absurd h (by simp)

theorem levelSplit_valid_some {rec : Str → Option Req} {t : Str} {sep : Char}
    {mk : List Req → Req} (hsep : sep ∈ t)
    (hv : ((split_top t sep).map rec).all is_valid_split_item = true) :
    levelSplit rec t sep mk
      = some (mk (dedupe (((split_top t sep).map rec).filterMap id))) := by
  unfold levelSplit
  rw [if_pos hsep]
  dsimp only
  rw [if_pos hv]

theorem dedupeGo_subset : ∀ (l seen : List Req) (a : Req), a ∈ dedupeGo seen l → a ∈ l := by
  intro l
  induction l with
  | nil => intro seen a h; simp [dedupeGo] at h
  | cons it rest ih =>
    intro seen a h
    unfold dedupeGo at h
    split at h
    · exact List.mem_cons_of_mem _ (ih seen a h)
    · rcases List.mem_cons.mp h with h1 | h2
      · exact h1 ▸ List.mem_cons_self _ _
      · exact List.mem_cons_of_mem _ (ih _ a h2)

theorem dedupe_subset (l : List Req) (a : Req) (h : a ∈ dedupe l) : a ∈ l :=
  dedupeGo_subset l [] a h

theorem leavesOfL_mem : ∀ (l : List Req) (lf : Option Str × Str × Str),
    lf ∈ leavesOfL l ↔ ∃ ch ∈ l, lf ∈ leavesOf ch := by
  intro l
  induction l with
  | nil => intro lf; simp [leavesOfL]
  | cons t ts ih =>
    intro lf
    simp only [leavesOfL, List.mem_append, ih]
    constructor
    · rintro (h1 | ⟨ch, hch, h2⟩)
      · exact ⟨t, List.mem_cons_self _ _, h1⟩
      · exact ⟨ch, List.mem_cons_of_mem _ hch, h2⟩
    · rintro ⟨ch, hch, h2⟩
      rcases List.mem_cons.mp hch with h1 | h1
      · exact Or.inl (h1 ▸ h2)
      · exact Or.inr ⟨ch, h1, h2⟩

theorem part_length_lt_of_step {text : Str} {sep : Char}
    (hsep : sep ∈ fixArtifacts (normalize_text text)) :
    ∀ p ∈ split_top (fixArtifacts (normalize_text text)) sep, p.length < text.length := by
  intro p hp
  have h1 := split_top_length_lt _ sep hsep p hp
  have h2 : (fixArtifacts (normalize_text text)).length ≤ text.length :=
    le_trans (fixArtifacts_length_le _) (normalize_text_length_le _)
  omega

theorem parse_leaves_inv (resolve : Resolver)
    (hres : ∀ tok : Str, ((resolve tok).1.isSome ↔ (resolve tok).2.2 = "internal".data)) :
    ∀ (n : Nat) (text : Str), text.length < n → ∀ tree,
      parse_req_text resolve text = some tree →
      ∀ lf ∈ leavesOf tree, (lf.1.isSome ↔ lf.2.2 = "internal".data) := by
  intro n
  induction n with
  | zero => intro text h; omega
  | succ m ih =>
    intro text hlt tree hp lf hlf
    rw [parse_unfold] at hp
    unfold parseStep at hp
    by_cases h0 : text = []
    · rw [if_pos h0] at hp
      exact absurd hp (by simp)
    · rw [if_neg h0] at hp
      dsimp only at hp
      cases hOr : levelSplit (parse_req_text resolve) (fixArtifacts (normalize_text text))
          '/' Req.orR with
      | some res =>
        rw [hOr] at hp
        dsimp only at hp
        obtain rfl : res = tree := Option.some.inj hp
        obtain ⟨hsep, _, hshape⟩ := levelSplit_some_elim hOr
        rw [hshape] at hlf
        unfold leavesOf at hlf
        obtain ⟨ch, hch, hlfch⟩ := (leavesOfL_mem _ lf).mp hlf
        have hchX := dedupe_subset _ ch hch
        obtain ⟨oc, hoc, hoceq⟩ := List.mem_filterMap.mp hchX
        obtain ⟨p, hpmem, hpeq⟩ := List.mem_map.mp hoc
        have hplen := part_length_lt_of_step hsep p hpmem
        have : parse_req_text resolve p = some ch := by
          rw [hpeq]; simpa using hoceq
        exact ih p (by omega) ch this lf hlfch
      | none =>
        rw [hOr] at hp
        dsimp only at hp
        cases hAnd : levelSplit (parse_req_text resolve) (fixArtifacts (normalize_text text))
            '+' Req.anR with
        | some res =>
          rw [hAnd] at hp
          dsimp only at hp
          obtain rfl : res = tree := Option.some.inj hp
          obtain ⟨hsep, _, hshape⟩ := levelSplit_some_elim hAnd
          rw [hshape] at hlf
          unfold leavesOf at hlf
          obtain ⟨ch, hch, hlfch⟩ := (leavesOfL_mem _ lf).mp hlf
          have hchX := dedupe_subset _ ch hch
          obtain ⟨oc, hoc, hoceq⟩ := List.mem_filterMap.mp hchX
          obtain ⟨p, hpmem, hpeq⟩ := List.mem_map.mp hoc
          have hplen := part_length_lt_of_step hsep p hpmem
          have : parse_req_text resolve p = some ch := by
            rw [hpeq]; simpa using hoceq
          exact ih p (by omega) ch this lf hlfch
        | none =>
          rw [hAnd] at hp
          dsimp only at hp
          obtain rfl := Option.some.inj hp
          unfold leavesOf at hlf
          rw [List.mem_singleton] at hlf
          subst hlf
          exact hres (fixArtifacts (normalize_text text))

-- ---------------------------------------------------------------------------
-- Claims C9, C8, C4, C7
-- ---------------------------------------------------------------------------

/-- C9: for every token, the triple (code, raw, kind) returned by the
resolver satisfies the leaf invariant: code is present if and only if kind is
internal, and raw equals the token text the resolver was given; consequently
every leaf of a tree produced by parse_req_text from that resolver satisfies
kind internal iff code present. -/
theorem c9_resolver_leaf_invariant (catalog : List CatalogCourse)
    (ext : ExternalRules) (alias_rules : List (Str × Str)) :
    (∀ token : Str,
      ((build_resolver catalog ext alias_rules token).1.isSome
          ↔ (build_resolver catalog ext alias_rules token).2.2 = "internal".data)
        ∧ (build_resolver catalog ext alias_rules token).2.1 = token)
    ∧ (∀ (text : Str) (tree : Req),
        parse_req_text (build_resolver catalog ext alias_rules) text = some tree →
        ∀ lf ∈ leavesOf tree, (lf.1.isSome ↔ lf.2.2 = "internal".data)) := by
  refine ⟨fun token => build_resolver_inv catalog ext alias_rules token, ?_⟩
  intro text tree hp lf hlf
  exact parse_leaves_inv (build_resolver catalog ext alias_rules)
    (fun tok => (build_resolver_inv catalog ext alias_rules tok).1)
    (text.length + 1) text (Nat.lt_succ_self _) tree hp lf hlf

/-- C9 witness: the invariant evaluated at a concrete resolver, an unmatched
token, and a concrete parse result. -/
theorem c9_resolver_leaf_invariant_witness :
    (build_resolver [⟨"12345".data, "Calc".data⟩] ⟨[], []⟩ [] "hello".data).2.1
      = "hello".data
    ∧ ∀ lf ∈ leavesOf (Req.leaf (some "12345".data) "12345".data "internal".data),
        (lf.1.isSome ↔ lf.2.2 = "internal".data) :=
  ⟨((c9_resolver_leaf_invariant [⟨"12345".data, "Calc".data⟩] ⟨[], []⟩ []).1
      "hello".data).2,
   (c9_resolver_leaf_invariant [⟨"12345".data, "Calc".data⟩] ⟨[], []⟩ []).2
      "12345".data (Req.leaf (some "12345".data) "12345".data "internal".data)
      (by decide)⟩

/-- C8: a token whose normalized form is all digits, at least 5 characters
long, not an alias key, and not a catalog course code resolves to unresolved
with no code, never reaching name or external matching. -/
theorem c8_numeric_unresolved (catalog : List CatalogCourse) (ext : ExternalRules)
    (alias_rules : List (Str × Str)) (token : Str)
    (hdig : pyIsdigit (normalize_name_key token) = true)
    (hlen : 5 ≤ (normalize_name_key token).length)
    (halias : dlookup (alias_map_norm alias_rules) (normalize_name_key token) = none)
    (hcode : dlookup (by_code catalog) (normalize_name_key token) = none) :
    build_resolver catalog ext alias_rules token = (none, token, "unresolved".data) := by
  unfold build_resolver
  dsimp only
  rw [halias]
  unfold resolverRest
  rw [hcode]
  have hd : decide (5 ≤ (normalize_name_key token).length) = true := decide_eq_true hlen
  simp [hdig, hd]

/-- C8 witness: the heuristic evaluated at a concrete five-digit token absent
from a concrete catalog. -/
theorem c8_numeric_unresolved_witness :
    build_resolver [⟨"12345".data, "Calc".data⟩] ⟨[], []⟩ [] "99999".data
      = (none, "99999".data, "unresolved".data) :=
  c8_numeric_unresolved [⟨"12345".data, "Calc".data⟩] ⟨[], []⟩ [] "99999".data
    (by decide) (by decide) (by decide) (by decide)

/-- C4 counterexample: a token matching an alias whose canonical target is a
course code present in the catalog, where the claim demands kind internal
with that code, but the resolver returns unresolved because the canonical
target is not all-digits (the source only treats all-digit canonical targets
as codes). -/
theorem c4_alias_counterexample :
    dlookup (alias_map_norm [("x".data, "CS1".data)]) (normalize_name_key "x".data)
      = some "CS1".data
    ∧ (dlookup (by_code [⟨"CS1".data, "Intro".data⟩]) "CS1".data).isSome = true
    ∧ build_resolver [⟨"CS1".data, "Intro".data⟩] ⟨[], []⟩
        [("x".data, "CS1".data)] "x".data
      = (none, "x".data, "unresolved".data) :=
  ⟨by decide, by decide, by decide⟩

/-- C4 amended: a token whose normalized form matches an alias with a
non-empty canonical target is decided entirely by the alias branch (it never
falls through to direct-code, name, or external matching): when the
normalized canonical target is all digits, the resolver returns internal with
that code exactly when it is a catalog course code and unresolved otherwise;
when it is not all digits, the resolver returns internal with the mapped code
exactly when the canonical target matches a catalog course name with a
non-empty code, and unresolved otherwise. -/
theorem c4_alias_amended (catalog : List CatalogCourse) (ext : ExternalRules)
    (alias_rules : List (Str × Str)) (token canon : Str)
    (halias : dlookup (alias_map_norm alias_rules) (normalize_name_key token) = some canon)
    (hne : canon ≠ []) :
    build_resolver catalog ext alias_rules token =
      (if pyIsdigit (normalize_name_key canon) then
        (if (dlookup (by_code catalog) (normalize_name_key canon)).isSome then
          (some (normalize_name_key canon), token, "internal".data)
        else (none, token, "unresolved".data))
      else
        (match dlookup (by_name catalog) (normalize_name_key canon) with
         | some code =>
           if code = [] then (none, token, "unresolved".data)
           else (some code, token, "internal".data)
         | none => (none, token, "unresolved".data))) := by
  unfold build_resolver
  dsimp only
  rw [halias]
  dsimp only
  rw [if_neg hne]

/-- C4 amended witness: an alias to an all-digit catalog code resolves to
internal. -/
theorem c4_alias_amended_witness :
    build_resolver [⟨"12345".data, "Calc".data⟩] ⟨[], []⟩
      [("y".data, "12345".data)] "y".data
      = (some "12345".data, "y".data, "internal".data) := by
  rw [c4_alias_amended [⟨"12345".data, "Calc".data⟩] ⟨[], []⟩
    [("y".data, "12345".data)] "y".data "12345".data (by decide) (by decide)]
  decide

/-- C7 counterexample: the whitespace-only text consisting of one space does
not parse to none (as the claim demands); it normalizes to the empty string,
falls through to the leaf branch, and yields an unresolved leaf. -/
theorem c7_whitespace_counterexample :
    parse_req_text (build_resolver [] ⟨[], []⟩ []) " ".data
      = some (Req.leaf none [] "unresolved".data) := by decide

/-- C7 amended: only the empty text parses to none; non-empty text whose
normalization is empty (whitespace-only text) instead resolves the empty
normalized string as a single leaf. -/
theorem c7_empty_amended (resolve : Resolver) (text : Str) :
    (text = [] → parse_req_text resolve text = none)
    ∧ (text ≠ [] → normalize_text text = [] →
        parse_req_text resolve text
          = some (Req.leaf (resolve []).1 (resolve []).2.1 (resolve []).2.2)) := by
  constructor
  · intro h; subst h; rfl
  · intro h0 hnorm
    rw [parse_unfold]
    unfold parseStep
    rw [if_neg h0]
    dsimp only
    rw [hnorm, show fixArtifacts ([] : Str) = [] from rfl]
    rw [levelSplit_not_mem (by simp), levelSplit_not_mem (by simp)]

/-- C7 amended witness: the two branches evaluated at the empty text and at a
single space, for a concrete resolver. -/
theorem c7_empty_amended_witness :
    parse_req_text (build_resolver [⟨"12345".data, "Calc".data⟩] ⟨[], []⟩ []) [] = none
    ∧ parse_req_text (build_resolver [⟨"12345".data, "Calc".data⟩] ⟨[], []⟩ []) "  ".data
      = some (Req.leaf
          ((build_resolver [⟨"12345".data, "Calc".data⟩] ⟨[], []⟩ []) []).1
          ((build_resolver [⟨"12345".data, "Calc".data⟩] ⟨[], []⟩ []) []).2.1
          ((build_resolver [⟨"12345".data, "Calc".data⟩] ⟨[], []⟩ []) []).2.2) :=
  ⟨(c7_empty_amended (build_resolver [⟨"12345".data, "Calc".data⟩] ⟨[], []⟩ []) []).1 rfl,
   (c7_empty_amended (build_resolver [⟨"12345".data, "Calc".data⟩] ⟨[], []⟩ [])
      "  ".data).2 (by decide) (by decide)⟩

theorem levelSplit_invalid {rec : Str → Option Req} {t : Str} {sep : Char}
    {mk : List Req → Req}
    (hv : ((split_top t sep).map rec).all is_valid_split_item = false) :
    levelSplit rec t sep mk = none := by
  unfold levelSplit
  split
  · dsimp only
    rw [if_neg (by simp [hv])]
  · rfl

-- ---------------------------------------------------------------------------
-- Claims C3, C10
-- ---------------------------------------------------------------------------

/-- C3: for every non-empty requirement text, the parser first tries the OR
split on the slash separator and uses it exactly when every recursively
parsed part is valid; failing that, it tries the AND split on the plus
separator under the same gate; and when both splits are absent or invalid it
resolves the whole normalized (artifact-repaired) text as a single leaf, so
the slash takes precedence over the plus and an invalid split is never
used. -/
theorem c3_parser_precedence (resolve : Resolver) (text : Str) (htext : text ≠ []) :
    ('/' ∈ fixArtifacts (normalize_text text) →
      ((split_top (fixArtifacts (normalize_text text)) '/').map
          (parse_req_text resolve)).all is_valid_split_item = true →
      parse_req_text resolve text
        = some (Req.orR (dedupe (((split_top (fixArtifacts (normalize_text text)) '/').map
            (parse_req_text resolve)).filterMap id))))
    ∧ (('/' ∉ fixArtifacts (normalize_text text)
          ∨ ((split_top (fixArtifacts (normalize_text text)) '/').map
              (parse_req_text resolve)).all is_valid_split_item = false) →
        '+' ∈ fixArtifacts (normalize_text text) →
        ((split_top (fixArtifacts (normalize_text text)) '+').map
            (parse_req_text resolve)).all is_valid_split_item = true →
        parse_req_text resolve text
          = some (Req.anR (dedupe (((split_top (fixArtifacts (normalize_text text)) '+').map
              (parse_req_text resolve)).filterMap id))))
    ∧ (('/' ∉ fixArtifacts (normalize_text text)
          ∨ ((split_top (fixArtifacts (normalize_text text)) '/').map
              (parse_req_text resolve)).all is_valid_split_item = false) →
       ('+' ∉ fixArtifacts (normalize_text text)
          ∨ ((split_top (fixArtifacts (normalize_text text)) '+').map
              (parse_req_text resolve)).all is_valid_split_item = false) →
        parse_req_text resolve text
          = some (Req.leaf (resolve (fixArtifacts (normalize_text text))).1
              (resolve (fixArtifacts (normalize_text text))).2.1
              (resolve (fixArtifacts (normalize_text text))).2.2)) := by
  refine ⟨?_, ?_, ?_⟩
  · intro hsep hvalid
    rw [parse_unfold]
    unfold parseStep
    rw [if_neg htext]
    dsimp only
    rw [levelSplit_valid_some hsep hvalid]
  · intro hOrFail hsep hvalid
    rw [parse_unfold]
    unfold parseStep
    rw [if_neg htext]
    dsimp only
    have hnone : levelSplit (parse_req_text resolve) (fixArtifacts (normalize_text text))
        '/' Req.orR = none := by
      rcases hOrFail with h | h
      · exact levelSplit_not_mem h
      · exact levelSplit_invalid h
    rw [hnone]
    dsimp only
    rw [levelSplit_valid_some hsep hvalid]
  · intro hOrFail hAndFail
    rw [parse_unfold]
    unfold parseStep
    rw [if_neg htext]
    dsimp only
    have hnoneOr : levelSplit (parse_req_text resolve) (fixArtifacts (normalize_text text))
        '/' Req.orR = none := by
      rcases hOrFail with h | h
      · exact levelSplit_not_mem h
      · exact levelSplit_invalid h
    have hnoneAnd : levelSplit (parse_req_text resolve) (fixArtifacts (normalize_text text))
        '+' Req.anR = none := by
      rcases hAndFail with h | h
      · exact levelSplit_not_mem h
      · exact levelSplit_invalid h
    rw [hnoneOr]
    dsimp only
    rw [hnoneAnd]

/-- C3 witness: the three branches evaluated for a concrete catalog resolver:
a valid OR split, a valid AND split reached because no slash occurs, and the
single-leaf fallback when the AND split contains an unresolved part. -/
theorem c3_parser_precedence_witness :
    parse_req_text (build_resolver [⟨"12345".data, "Calc".data⟩,
        ⟨"22222".data, "Alg".data⟩] ⟨[], []⟩ []) "12345/22222".data
      = some (Req.orR (dedupe
          (((split_top (fixArtifacts (normalize_text "12345/22222".data)) '/').map
            (parse_req_text (build_resolver [⟨"12345".data, "Calc".data⟩,
              ⟨"22222".data, "Alg".data⟩] ⟨[], []⟩ []))).filterMap id)))
    ∧ parse_req_text (build_resolver [⟨"12345".data, "Calc".data⟩,
        ⟨"22222".data, "Alg".data⟩] ⟨[], []⟩ []) "12345+22222".data
      = some (Req.anR (dedupe
          (((split_top (fixArtifacts (normalize_text "12345+22222".data)) '+').map
            (parse_req_text (build_resolver [⟨"12345".data, "Calc".data⟩,
              ⟨"22222".data, "Alg".data⟩] ⟨[], []⟩ []))).filterMap id)))
    ∧ parse_req_text (build_resolver [⟨"12345".data, "Calc".data⟩,
        ⟨"22222".data, "Alg".data⟩] ⟨[], []⟩ []) "12345+mystery".data
      = some (Req.leaf
          ((build_resolver [⟨"12345".data, "Calc".data⟩, ⟨"22222".data, "Alg".data⟩]
            ⟨[], []⟩ []) (fixArtifacts (normalize_text "12345+mystery".data))).1
          ((build_resolver [⟨"12345".data, "Calc".data⟩, ⟨"22222".data, "Alg".data⟩]
            ⟨[], []⟩ []) (fixArtifacts (normalize_text "12345+mystery".data))).2.1
          ((build_resolver [⟨"12345".data, "Calc".data⟩, ⟨"22222".data, "Alg".data⟩]
            ⟨[], []⟩ []) (fixArtifacts (normalize_text "12345+mystery".data))).2.2) :=
  ⟨(c3_parser_precedence (build_resolver [⟨"12345".data, "Calc".data⟩,
      ⟨"22222".data, "Alg".data⟩] ⟨[], []⟩ []) "12345/22222".data (by decide)).1
    (by decide) (by decide),
   (c3_parser_precedence (build_resolver [⟨"12345".data, "Calc".data⟩,
      ⟨"22222".data, "Alg".data⟩] ⟨[], []⟩ []) "12345+22222".data (by decide)).2.1
    (Or.inl (by decide)) (by decide) (by decide),
   (c3_parser_precedence (build_resolver [⟨"12345".data, "Calc".data⟩,
      ⟨"22222".data, "Alg".data⟩] ⟨[], []⟩ []) "12345+mystery".data (by decide)).2.2
    (Or.inl (by decide)) (Or.inr (by decide))⟩

/-- C10: a text whose normalized form contains a separator but no non-empty
parts between separators parses to an empty OR node when a slash is present,
and to an empty AND node when only a plus is present — not to none and not to
an unresolved leaf, since the validity gate over an empty part list passes
vacuously; and the compiler treats such an empty node as satisfied (its
satisfaction variable is forced to 1 at every allowed semester of the target)
with no warning. -/
theorem c10_separator_only (resolve : Resolver) (text : Str) :
    ('/' ∈ fixArtifacts (normalize_text text) →
      split_top (fixArtifacts (normalize_text text)) '/' = [] →
      parse_req_text resolve text = some (Req.orR []))
    ∧ ('/' ∉ fixArtifacts (normalize_text text) →
       '+' ∈ fixArtifacts (normalize_text text) →
       split_top (fixArtifacts (normalize_text text)) '+' = [] →
       parse_req_text resolve text = some (Req.anR []))
    ∧ (∀ (allowed : List (Str × List Int)) (target : Str),
        (add_ir_prereq_constraints allowed target (Req.orR [])).2 = []
        ∧ (add_ir_prereq_constraints allowed target (Req.anR [])).2 = []
        ∧ ∀ s ∈ (dlookup allowed target).getD [],
            Constr.eq (evar (SVar.zsat target [] s)) (econst 1)
              ∈ (add_ir_prereq_constraints allowed target (Req.orR [])).1
            ∧ Constr.eq (evar (SVar.zsat target [] s)) (econst 1)
              ∈ (add_ir_prereq_constraints allowed target (Req.anR [])).1) := by
  have htext : ∀ sep, sep ∈ fixArtifacts (normalize_text text) → text ≠ [] := by
    intro sep hsep h0
    subst h0
    revert hsep
    rw [show normalize_text ([] : Str) = [] from rfl,
      show fixArtifacts ([] : Str) = [] from rfl]
    exact List.not_mem_nil sep
  refine ⟨?_, ?_, ?_⟩
  · intro hsep hsplit
    rw [parse_unfold]
    unfold parseStep
    rw [if_neg (htext '/' hsep)]
    dsimp only
    have hvalid : ((split_top (fixArtifacts (normalize_text text)) '/').map
        (parse_req_text resolve)).all is_valid_split_item = true := by
      rw [hsplit]; rfl
    rw [levelSplit_valid_some hsep hvalid]
    rw [hsplit]
    rfl
  · intro hnos hsep hsplit
    rw [parse_unfold]
    unfold parseStep
    rw [if_neg (htext '+' hsep)]
    dsimp only
    rw [levelSplit_not_mem hnos]
    dsimp only
    have hvalid : ((split_top (fixArtifacts (normalize_text text)) '+').map
        (parse_req_text resolve)).all is_valid_split_item = true := by
      rw [hsplit]; rfl
    rw [levelSplit_valid_some hsep hvalid]
    rw [hsplit]
    rfl
  · intro allowed target
    have hfold : ∀ (tr : Req), warnPass allowed target tr ⟨[], []⟩ = ⟨[], []⟩ →
        ∀ (l : List Int) (st : WState),
          (∀ st' : WState, warnPass allowed target tr st' = st') →
          l.foldl (fun st _s => warnPass allowed target tr st) st = st := by
      intro tr _ l
      induction l with
      | nil => intro st _; rfl
      | cons s rest ih =>
        intro st hid
        rw [List.foldl_cons, hid st]
        exact ih st hid
    have hOrW : (add_ir_prereq_constraints allowed target (Req.orR [])).2 = [] := by
      unfold add_ir_prereq_constraints
      dsimp only
      rw [hfold (Req.orR []) rfl _ ⟨[], []⟩ (fun _ => rfl)]
    have hAnW : (add_ir_prereq_constraints allowed target (Req.anR [])).2 = [] := by
      unfold add_ir_prereq_constraints
      dsimp only
      rw [hfold (Req.anR []) rfl _ ⟨[], []⟩ (fun _ => rfl)]
    refine ⟨hOrW, hAnW, ?_⟩
    intro s hs
    constructor
    · unfold add_ir_prereq_constraints
      dsimp only
      refine List.mem_flatMap.mpr ⟨s, hs, ?_⟩
      simp [sat_emit]
    · unfold add_ir_prereq_constraints
      dsimp only
      refine List.mem_flatMap.mpr ⟨s, hs, ?_⟩
      simp [sat_emit]

/-- C10 witness: the slash-only and plus-only texts evaluated with a concrete
resolver, and the compiler conclusions at a concrete plan. -/
theorem c10_separator_only_witness :
    parse_req_text (build_resolver [] ⟨[], []⟩ []) "/".data = some (Req.orR [])
    ∧ parse_req_text (build_resolver [] ⟨[], []⟩ []) "+".data = some (Req.anR [])
    ∧ ((add_ir_prereq_constraints [("X".data, [1])] "X".data (Req.orR [])).2 = []
       ∧ Constr.eq (evar (SVar.zsat "X".data [] 1)) (econst 1)
           ∈ (add_ir_prereq_constraints [("X".data, [1])] "X".data (Req.orR [])).1) :=
  ⟨(c10_separator_only (build_resolver [] ⟨[], []⟩ []) "/".data).1 (by decide) (by decide),
   (c10_separator_only (build_resolver [] ⟨[], []⟩ []) "+".data).2.1 (by decide)
     (by decide) (by decide),
   ((c10_separator_only (build_resolver [] ⟨[], []⟩ []) "/".data).2.2
       [("X".data, [1])] "X".data).1,
   (((c10_separator_only (build_resolver [] ⟨[], []⟩ []) "/".data).2.2
       [("X".data, [1])] "X".data).2.2 1 (by decide)).1⟩

-- ---------------------------------------------------------------------------
-- Hint string distinctness and claim C5
-- ---------------------------------------------------------------------------

theorem rev9_append (a T : Str) (h : 9 ≤ T.length) :
    (a ++ T).reverse.take 9 = T.reverse.take 9 := by
  rw [List.reverse_append]
  exact List.take_append_of_le_length (by simpa using h)

theorem rule1_hint_rev9 (c : Str) :
    (rule1_hint c).reverse.take 9
      = ("\" has no allowed semesters (offerings). Add at least one offering.".data).reverse.take 9 := by
  unfold rule1_hint
  exact rev9_append _ _ (by decide)

theorem rule2_hint_rev9 (c : Str) (a b : Int) :
    (rule2_hint c a b).reverse.take 9
      = (". Increase the max or adjust the course.".data).reverse.take 9 := by
  unfold rule2_hint
  simp only [← List.append_assoc]
  exact rev9_append _ _ (by decide)

theorem rule3_hint_rev9 (a b d e : Int) :
    (rule3_hint a b d e).reverse.take 9
      = ("). Increase total semesters / max credits, or reduce credits.".data).reverse.take 9 := by
  unfold rule3_hint
  simp only [← List.append_assoc]
  exact rev9_append _ _ (by decide)

theorem rule1_ne_rule2 (c c' : Str) (a b : Int) : rule1_hint c ≠ rule2_hint c' a b := by
  intro h
  have h9 := congrArg (fun l : Str => l.reverse.take 9) h
  dsimp only at h9
  rw [rule1_hint_rev9, rule2_hint_rev9] at h9
  exact absurd h9 (by decide)

theorem rule1_ne_rule3 (c : Str) (a b d e : Int) : rule1_hint c ≠ rule3_hint a b d e := by
  intro h
  have h9 := congrArg (fun l : Str => l.reverse.take 9) h
  dsimp only at h9
  rw [rule1_hint_rev9, rule3_hint_rev9] at h9
  exact absurd h9 (by decide)

theorem rule1_ne_unknown (c : Str) : rule1_hint c ≠ unknown_credits_hint := by
  intro h
  have h9 := congrArg (fun l : Str => l.reverse.take 9) h
  dsimp only at h9
  rw [rule1_hint_rev9] at h9
  exact absurd h9 (by decide)

theorem rule1_hint_inj (c c' : Str) (h : rule1_hint c = rule1_hint c') : c = c' := by
  unfold rule1_hint at h
  have h1 := List.append_cancel_right h
  exact List.append_cancel_left h1

theorem rule2_hints_shape (courses : List Str) (credits : List (Str × Int))
    (ml : Option Int) :
    ∀ h ∈ rule2_hints courses credits ml, ∃ c a b, h = rule2_hint c a b := by
  intro h hmem
  unfold rule2_hints at hmem
  split at hmem
  · split at hmem
    · obtain ⟨c, _, hc⟩ := List.mem_filterMap.mp hmem
      split at hc
      · split at hc
        · exact ⟨c, _, _, (Option.some.inj hc).symm⟩
        · exact absurd hc (by simp)
      · exact absurd hc (by simp)
    · exact absurd hmem (List.not_mem_nil h)
  · exact absurd hmem (List.not_mem_nil h)

theorem rule3_hints_shape (courses : List Str) (credits : List (Str × Int))
    (ts ml : Option Int) :
    ∀ h ∈ rule3_hints courses credits ts ml,
      (∃ a b d e, h = rule3_hint a b d e) ∨ h = unknown_credits_hint := by
  intro h hmem
  unfold rule3_hints at hmem
  split at hmem
  · split at hmem
    · dsimp only at hmem
      split at hmem
      · rw [List.mem_singleton] at hmem
        exact Or.inl ⟨_, _, _, _, hmem⟩
      · split at hmem
        · rw [List.mem_singleton] at hmem
          exact Or.inr hmem
        · exact absurd hmem (List.not_mem_nil h)
    · exact absurd hmem (List.not_mem_nil h)
  · exact absurd hmem (List.not_mem_nil h)

/-- C5: build_model fails with a structured error exactly when some course in
the course list has an empty or missing allowed-semester set (no constraints
are produced in that case), and — for a non-empty course list — the upstream
validation emits the no-allowed-semesters hint exactly for those courses. -/
theorem c5_empty_semesters_guard (courses : List Str) (prereq_trees : List (Str × Req))
    (allowed : List (Str × List Int)) (credits : List (Str × Int))
    (max_credits_per_semester : List (Int × Int))
    (use_credit_limits use_prereqs_ir minimize_last_semester : Bool) :
    ((∃ e, build_model courses prereq_trees allowed credits max_credits_per_semester
        use_credit_limits use_prereqs_ir minimize_last_semester = .error e)
      ↔ ∃ c ∈ courses, (dlookup allowed c).getD [] = [])
    ∧ (courses ≠ [] → ∀ c : Str,
        (rule1_hint c ∈ validate_inputs_before_solve courses allowed credits
            max_credits_per_semester
          ↔ c ∈ courses ∧ (dlookup allowed c).getD [] = [])) := by
  constructor
  · cases hf : courses.find? (fun c => ((dlookup allowed c).getD []).isEmpty) with
    | none =>
      constructor
      · intro ⟨e, he⟩
        unfold build_model at he
        rw [hf] at he
        exact absurd he (by simp)
      · intro ⟨c, hc, hempty⟩
        have := List.find?_eq_none.mp hf c hc
        rw [hempty] at this
        exact absurd (rfl : ([] : List Int).isEmpty = true) this
    | some c =>
      constructor
      · intro _
        refine ⟨c, List.mem_of_find?_eq_some hf, ?_⟩
        have := List.find?_some hf
        simpa [List.isEmpty_iff] using this
      · intro _
        refine ⟨"Course ".data ++ c ++ " has no allowed semesters (offerings).".data, ?_⟩
        unfold build_model
        rw [hf]
  · intro hne c
    unfold validate_inputs_before_solve
    rw [if_neg hne]
    constructor
    · intro hmem
      rcases List.mem_append.mp hmem with hmem' | h3
      · rcases List.mem_append.mp hmem' with h1 | h2
        · unfold rule1_hints at h1
          obtain ⟨c', hc', heq⟩ := List.mem_map.mp h1
          obtain rfl : c = c' := rule1_hint_inj c c' heq.symm
          have hfil := List.mem_filter.mp hc'
          refine ⟨hfil.1, ?_⟩
          simpa [List.isEmpty_iff] using hfil.2
        · obtain ⟨c', a, b, heq⟩ := rule2_hints_shape _ _ _ _ h2
          exact absurd heq (rule1_ne_rule2 c c' a b)
      · rcases rule3_hints_shape _ _ _ _ _ h3 with ⟨a, b, d, e, heq⟩ | heq
        · exact absurd heq (rule1_ne_rule3 c a b d e)
        · exact absurd heq (rule1_ne_unknown c)
    · intro ⟨hc, hempty⟩
      refine List.mem_append.mpr (Or.inl (List.mem_append.mpr (Or.inl ?_)))
      unfold rule1_hints
      refine List.mem_map.mpr ⟨c, ?_, rfl⟩
      refine List.mem_filter.mpr ⟨hc, ?_⟩
      simp [hempty]

/-- C5 witness: a concrete plan with one course and no offerings trips both
the validation hint and the build_model error; a plan whose only course has
an offering trips neither. -/
theorem c5_empty_semesters_guard_witness :
    rule1_hint "A".data ∈ validate_inputs_before_solve ["A".data] [] [] []
    ∧ (∃ e, build_model ["A".data] [] [] [] [] true true true = .error e)
    ∧ ¬ (∃ e, build_model ["A".data] [] [("A".data, ([1] : List Int))] [] [] true true true
          = .error e) :=
  ⟨((c5_empty_semesters_guard ["A".data] [] [] [] [] true true true).2
      (by decide) "A".data).mpr ⟨by decide, by decide⟩,
   (c5_empty_semesters_guard ["A".data] [] [] [] [] true true true).1.mpr
      ⟨"A".data, by decide, by decide⟩,
   fun he =>
     (by decide : ¬ ∃ c ∈ ["A".data],
        (dlookup [("A".data, ([1] : List Int))] c).getD [] = [])
       ((c5_empty_semesters_guard ["A".data] [] [("A".data, ([1] : List Int))] [] []
          true true true).1.mp he)⟩

-- ---------------------------------------------------------------------------
-- Linear-expression evaluation lemmas
-- ---------------------------------------------------------------------------

theorem evar_eval (σ : SVar → Int) (v : SVar) : (evar v).eval σ = σ v := by
  simp [LinExpr.eval, evar]

theorem econst_eval (σ : SVar → Int) (k : Int) : (econst k).eval σ = k := by
  simp [LinExpr.eval, econst]

theorem esum_eval (σ : SVar → Int) (vs : List SVar) (k : Int) :
    (esum vs k).eval σ = (vs.map σ).sum + k := by
  unfold LinExpr.eval esum
  rw [List.map_map]
  have hm : List.map ((fun p : Int × SVar => p.1 * σ p.2) ∘ fun v => ((1 : Int), v)) vs
      = List.map σ vs := by
    apply List.map_congr_left
    intro v _
    simp
  rw [hm]

theorem holdsAll_append (σ : SVar → Int) (l1 l2 : List Constr) :
    holdsAll σ (l1 ++ l2) = (holdsAll σ l1 && holdsAll σ l2) := by
  simp [holdsAll]

theorem holds_le_iff (σ : SVar → Int) (a b : LinExpr) :
    (Constr.le a b).holds σ = true ↔ a.eval σ ≤ b.eval σ := by
  simp [Constr.holds]

theorem holds_ge_iff (σ : SVar → Int) (a b : LinExpr) :
    (Constr.ge a b).holds σ = true ↔ b.eval σ ≤ a.eval σ := by
  simp [Constr.holds]

theorem holds_eq_iff (σ : SVar → Int) (a b : LinExpr) :
    (Constr.eq a b).holds σ = true ↔ a.eval σ = b.eval σ := by
  simp [Constr.holds]

theorem zfrom_length (course : Str) (path : List Nat) (s : Int) :
    ∀ (n i : Nat), (zfrom course path s i n).length = n := by
  intro n
  induction n with
  | zero => intro i; rfl
  | succ m ih => intro i; simp [zfrom, ih]

-- ---------------------------------------------------------------------------
-- Sum lemmas for 0/1-valued lists
-- ---------------------------------------------------------------------------

theorem sum01_nonneg (vs : List Int) (h : ∀ w ∈ vs, w = 0 ∨ w = 1) : 0 ≤ vs.sum := by
  induction vs with
  | nil => simp
  | cons x xs ih =>
    have hx := h x (List.mem_cons_self _ _)
    have := ih (fun w hw => h w (List.mem_cons_of_mem _ hw))
    simp only [List.sum_cons]
    omega

theorem sum01_all_one (vs : List Int) (h : ∀ w ∈ vs, w = 1) :
    vs.sum = (vs.length : Int) := by
  induction vs with
  | nil => simp
  | cons x xs ih =>
    have hx := h x (List.mem_cons_self _ _)
    have := ih (fun w hw => h w (List.mem_cons_of_mem _ hw))
    simp only [List.sum_cons, List.length_cons]
    omega

theorem sum01_all_zero (vs : List Int) (h : ∀ w ∈ vs, w = 0) : vs.sum = 0 := by
  induction vs with
  | nil => simp
  | cons x xs ih =>
    have hx := h x (List.mem_cons_self _ _)
    have := ih (fun w hw => h w (List.mem_cons_of_mem _ hw))
    simp only [List.sum_cons]
    omega

theorem sum01_le_len (vs : List Int) (h : ∀ w ∈ vs, w = 0 ∨ w = 1) :
    vs.sum ≤ (vs.length : Int) := by
  induction vs with
  | nil => simp
  | cons x xs ih =>
    have hx := h x (List.mem_cons_self _ _)
    have := ih (fun w hw => h w (List.mem_cons_of_mem _ hw))
    simp only [List.sum_cons, List.length_cons]
    omega

theorem sum01_zero_mem (vs : List Int) (h : ∀ w ∈ vs, w = 0 ∨ w = 1)
    (hz : ∃ w ∈ vs, w = 0) : vs.sum ≤ (vs.length : Int) - 1 := by
  induction vs with
  | nil => obtain ⟨w, hw, _⟩ := hz; exact absurd hw (List.not_mem_nil w)
  | cons x xs ih =>
    have hx := h x (List.mem_cons_self _ _)
    have hrest := fun w hw => h w (List.mem_cons_of_mem _ hw)
    simp only [List.sum_cons, List.length_cons]
    obtain ⟨w, hw, hw0⟩ := hz
    rcases List.mem_cons.mp hw with h1 | h1
    · have hxs := sum01_le_len xs hrest
      subst h1
      omega
    · have := ih hrest ⟨w, h1, hw0⟩
      omega

theorem sum01_one_mem (vs : List Int) (h : ∀ w ∈ vs, w = 0 ∨ w = 1)
    (ho : ∃ w ∈ vs, w = 1) : 1 ≤ vs.sum := by
  induction vs with
  | nil => obtain ⟨w, hw, _⟩ := ho; exact absurd hw (List.not_mem_nil w)
  | cons x xs ih =>
    have hx := h x (List.mem_cons_self _ _)
    have hrest := fun w hw => h w (List.mem_cons_of_mem _ hw)
    simp only [List.sum_cons]
    obtain ⟨w, hw, hw1⟩ := ho
    rcases List.mem_cons.mp hw with h1 | h1
    · have := sum01_nonneg xs hrest
      subst h1
      omega
    · have := ih hrest ⟨w, h1, hw1⟩
      omega

-- ---------------------------------------------------------------------------
-- The AND / OR linear gadgets
-- ---------------------------------------------------------------------------

theorem and_gadget (σz : Int) (vs : List Int) (hvs : ∀ w ∈ vs, w = 0 ∨ w = 1)
    (hz : σz = 0 ∨ σz = 1) :
    ((∀ w ∈ vs, σz ≤ w) ∧ vs.sum + (1 - (vs.length : Int)) ≤ σz)
      ↔ σz = (if ∀ w ∈ vs, w = 1 then 1 else 0) := by
  by_cases hall : ∀ w ∈ vs, w = 1
  · rw [if_pos hall]
    have hsum := sum01_all_one vs hall
    constructor
    · intro ⟨_, hge⟩
      omega
    · intro h1
      refine ⟨fun w hw => by rw [hall w hw]; omega, by omega⟩
  · rw [if_neg hall]
    push_neg at hall
    obtain ⟨w0, hw0, hw0ne⟩ := hall
    have hw00 : w0 = 0 := by rcases hvs w0 hw0 with h | h <;> omega
    constructor
    · intro ⟨hle, _⟩
      have := hle w0 hw0
      omega
    · intro h0
      constructor
      · intro w hw
        rcases hvs w hw with h | h <;> omega
      · have := sum01_zero_mem vs hvs ⟨w0, hw0, hw00⟩
        omega

theorem or_gadget (σz : Int) (vs : List Int) (hvs : ∀ w ∈ vs, w = 0 ∨ w = 1)
    (hz : σz = 0 ∨ σz = 1) :
    ((∀ w ∈ vs, w ≤ σz) ∧ σz ≤ vs.sum)
      ↔ σz = (if ∃ w ∈ vs, w = 1 then 1 else 0) := by
  by_cases hex : ∃ w ∈ vs, w = 1
  · rw [if_pos hex]
    have hsum := sum01_one_mem vs hvs hex
    obtain ⟨w1, hw1, hw11⟩ := hex
    constructor
    · intro ⟨hge, _⟩
      have := hge w1 hw1
      omega
    · intro h1
      refine ⟨fun w hw => by rcases hvs w hw with h | h <;> omega, by omega⟩
  · rw [if_neg hex]
    push_neg at hex
    have hall0 : ∀ w ∈ vs, w = 0 := by
      intro w hw
      rcases hvs w hw with h | h
      · exact h
      · exact absurd h (hex w hw)
    have hsum := sum01_all_zero vs hall0
    constructor
    · intro ⟨_, hle⟩
      omega
    · intro h0
      refine ⟨fun w hw => by rw [hall0 w hw]; omega, by omega⟩

theorem mem_map_forall {α β : Type} {l : List α} {f : α → β} {P : β → Prop} :
    (∀ w ∈ l.map f, P w) ↔ ∀ x ∈ l, P (f x) := by
  constructor
  · intro h x hx
    exact h _ (List.mem_map_of_mem f hx)
  · intro h w hw
    obtain ⟨x, hx, rfl⟩ := List.mem_map.mp hw
    exact h x hx

theorem satAll_iff (allowed : List (Str × List Int)) (σ : SVar → Int) :
    ∀ (items : List Req) (s : Int),
      satAll allowed σ items s = true ↔ ∀ ch ∈ items, satVal allowed σ ch s = 1 := by
  intro items s
  induction items with
  | nil => simp [satAll]
  | cons ch rest ih =>
    simp only [satAll, Bool.and_eq_true, beq_iff_eq, List.forall_mem_cons, ih]

theorem satAny_iff (allowed : List (Str × List Int)) (σ : SVar → Int) :
    ∀ (items : List Req) (s : Int),
      satAny allowed σ items s = true ↔ ∃ ch ∈ items, satVal allowed σ ch s = 1 := by
  intro items s
  induction items with
  | nil => simp [satAny]
  | cons ch rest ih =>
    simp only [satAny, Bool.or_eq_true, beq_iff_eq, ih]
    constructor
    · rintro (h | ⟨ch', hch', h⟩)
      · exact ⟨ch, List.mem_cons_self _ _, h⟩
      · exact ⟨ch', List.mem_cons_of_mem _ hch', h⟩
    · rintro ⟨ch', hch', h⟩
      rcases List.mem_cons.mp hch' with h1 | h1
      · exact Or.inl (h1 ▸ h)
      · exact Or.inr ⟨ch', h1, h⟩

theorem allZ_head (allowed : List (Str × List Int)) (σ : SVar → Int) (target : Str) :
    ∀ (t : Req) (path : List Nat) (s : Int), allZ allowed σ target t path s = true →
      σ (SVar.zsat target path s) = satVal allowed σ t s := by
  intro t path s h
  cases t with
  | leaf code rawv kindv => simpa [allZ] using h
  | anR items =>
    simp only [allZ, Bool.and_eq_true, beq_iff_eq] at h
    exact h.1
  | orR items =>
    simp only [allZ, Bool.and_eq_true, beq_iff_eq] at h
    exact h.1

theorem allZL_satVal01 (allowed : List (Str × List Int)) (σ : SVar → Int)
    (target : Str) (s : Int)
    (hz : ∀ p : List Nat, σ (SVar.zsat target p s) = 0 ∨ σ (SVar.zsat target p s) = 1) :
    ∀ (items : List Req) (path : List Nat) (i : Nat),
      allZL allowed σ target items path i s = true →
      ∀ ch ∈ items, satVal allowed σ ch s = 0 ∨ satVal allowed σ ch s = 1 := by
  intro items
  induction items with
  | nil => intro path i _ ch hch; exact absurd hch (List.not_mem_nil ch)
  | cons ch0 rest ih =>
    intro path i h ch hch
    simp only [allZL, Bool.and_eq_true] at h
    rcases List.mem_cons.mp hch with h1 | h1
    · subst h1
      have := allZ_head allowed σ target ch (path ++ [i]) s h.1
      rw [← this]
      exact hz (path ++ [i])
    · exact ih path (i + 1) h.2 ch h1

theorem zfrom_map_eq (allowed : List (Str × List Int)) (σ : SVar → Int)
    (target : Str) (s : Int) :
    ∀ (items : List Req) (path : List Nat) (i : Nat),
      allZL allowed σ target items path i s = true →
      (zfrom target path s i items.length).map σ
        = items.map (fun ch => satVal allowed σ ch s) := by
  intro items
  induction items with
  | nil => intro path i _; rfl
  | cons ch0 rest ih =>
    intro path i h
    simp only [allZL, Bool.and_eq_true] at h
    simp only [List.length_cons, zfrom, List.map_cons]
    rw [allZ_head allowed σ target ch0 (path ++ [i]) s h.1, ih path (i + 1) h.2]

theorem holds_map_le (σ : SVar → Int) (z : SVar) :
    ∀ vs : List SVar,
      ((vs.map (fun cz => Constr.le (evar z) (evar cz))).all (Constr.holds σ) = true)
        ↔ ∀ v ∈ vs, σ z ≤ σ v := by
  intro vs
  induction vs with
  | nil => simp
  | cons v rest ih =>
    simp only [List.map_cons, List.all_cons, Bool.and_eq_true, ih, List.forall_mem_cons]
    rw [holds_le_iff, evar_eval, evar_eval]

theorem holds_map_ge (σ : SVar → Int) (z : SVar) :
    ∀ vs : List SVar,
      ((vs.map (fun cz => Constr.ge (evar z) (evar cz))).all (Constr.holds σ) = true)
        ↔ ∀ v ∈ vs, σ v ≤ σ z := by
  intro vs
  induction vs with
  | nil => simp
  | cons v rest ih =>
    simp only [List.map_cons, List.all_cons, Bool.and_eq_true, ih, List.forall_mem_cons]
    rw [holds_ge_iff, evar_eval, evar_eval]

theorem sat_emit_list_correct (allowed : List (Str × List Int)) (target : Str)
    (σ : SVar → Int) (s : Int) :
    ∀ (items : List Req),
      (∀ t ∈ items, ∀ path : List Nat,
        holdsAll σ (sat_emit allowed target t path s) = true
          ↔ allZ allowed σ target t path s = true) →
      ∀ (path : List Nat) (i : Nat),
        holdsAll σ (sat_emit_list allowed target items path i s) = true
          ↔ allZL allowed σ target items path i s = true := by
  intro items
  induction items with
  | nil => intro _ path i; simp [sat_emit_list, allZL, holdsAll]
  | cons ch rest ih =>
    intro hp path i
    simp only [sat_emit_list, allZL, holdsAll_append, Bool.and_eq_true]
    exact and_congr (hp ch (List.mem_cons_self _ _) (path ++ [i]))
      (ih (fun t ht => hp t (List.mem_cons_of_mem _ ht)) path (i + 1))

theorem mem_map_exists {α β : Type} {l : List α} {f : α → β} {P : β → Prop} :
    (∃ w ∈ l.map f, P w) ↔ ∃ x ∈ l, P (f x) := by
  constructor
  · rintro ⟨w, hw, hp⟩
    obtain ⟨x, hx, rfl⟩ := List.mem_map.mp hw
    exact ⟨x, hx, hp⟩
  · rintro ⟨x, hx, hp⟩
    exact ⟨f x, List.mem_map_of_mem f hx, hp⟩

theorem and_if_bridge (allowed : List (Str × List Int)) (σ : SVar → Int)
    (items : List Req) (s : Int) :
    (if ∀ w ∈ items.map (fun ch => satVal allowed σ ch s), w = 1 then (1 : Int) else 0)
      = satVal allowed σ (Req.anR items) s := by
  by_cases hq : ∀ w ∈ items.map (fun ch => satVal allowed σ ch s), w = 1
  · rw [if_pos hq]
    have hsa : satAll allowed σ items s = true :=
      (satAll_iff allowed σ items s).mpr (mem_map_forall.mp hq)
    simp [satVal, hsa]
  · rw [if_neg hq]
    have hsa : satAll allowed σ items s = false := by
      rcases Bool.eq_false_or_eq_true (satAll allowed σ items s) with h | h
      · exact absurd (mem_map_forall.mpr ((satAll_iff allowed σ items s).mp h)) hq
      · exact h
    simp [satVal, hsa]

theorem or_if_bridge (allowed : List (Str × List Int)) (σ : SVar → Int)
    (ch0 : Req) (rest : List Req) (s : Int) :
    (if ∃ w ∈ (ch0 :: rest).map (fun ch => satVal allowed σ ch s), w = 1
      then (1 : Int) else 0)
      = satVal allowed σ (Req.orR (ch0 :: rest)) s := by
  by_cases hq : ∃ w ∈ (ch0 :: rest).map (fun ch => satVal allowed σ ch s), w = 1
  · rw [if_pos hq]
    have hsa : satAny allowed σ (ch0 :: rest) s = true :=
      (satAny_iff allowed σ (ch0 :: rest) s).mpr (mem_map_exists.mp hq)
    simp [satVal, hsa]
  · rw [if_neg hq]
    have hsa : satAny allowed σ (ch0 :: rest) s = false := by
      rcases Bool.eq_false_or_eq_true (satAny allowed σ (ch0 :: rest) s) with h | h
      · exact absurd (mem_map_exists.mpr ((satAny_iff allowed σ (ch0 :: rest) s).mp h)) hq
      · exact h
    simp [satVal, hsa]

theorem sat_emit_correct (allowed : List (Str × List Int)) (target : Str)
    (σ : SVar → Int) (s : Int)
    (hz : ∀ p : List Nat, σ (SVar.zsat target p s) = 0 ∨ σ (SVar.zsat target p s) = 1) :
    ∀ (tree : Req) (path : List Nat),
      holdsAll σ (sat_emit allowed target tree path s) = true
        ↔ allZ allowed σ target tree path s = true := by
  refine Req.ind (fun t => ∀ path,
    holdsAll σ (sat_emit allowed target t path s) = true
      ↔ allZ allowed σ target t path s = true) ?_ ?_ ?_
  · -- leaf
    intro code rawv kindv path
    cases code with
    | none =>
      simp [sat_emit, allZ, satVal, holdsAll, Constr.holds, evar_eval, econst_eval]
    | some c =>
      cases hlk : dlookup allowed c with
      | none =>
        simp [sat_emit, hlk, allZ, satVal, holdsAll, Constr.holds, evar_eval, econst_eval]
      | some sems =>
        simp only [sat_emit, hlk, Option.isNone_some, Bool.false_eq_true, if_false,
          allZ, satVal, holdsAll, List.all_cons, List.all_nil, Bool.and_true,
          Bool.and_eq_true, beq_iff_eq]
        rw [holds_le_iff, holds_ge_iff, evar_eval]
        constructor
        · intro ⟨h1, h2⟩
          omega
        · intro h
          omega
  · -- AND node
    intro items hIH path
    cases items with
    | nil =>
      simp [sat_emit, allZ, satVal, satAll, allZL, holdsAll, Constr.holds,
        evar_eval, econst_eval]
    | cons ch0 rest =>
      constructor
      · intro h
        simp only [sat_emit, holdsAll_append, Bool.and_eq_true] at h
        obtain ⟨⟨h1, h2⟩, h3⟩ := h
        have hzl := (sat_emit_list_correct allowed target σ s (ch0 :: rest) hIH path 0).mp h1
        have hmap := zfrom_map_eq allowed σ target s (ch0 :: rest) path 0 hzl
        have h01 : ∀ w ∈ (ch0 :: rest).map (fun ch => satVal allowed σ ch s),
            w = 0 ∨ w = 1 :=
          mem_map_forall.mpr (allZL_satVal01 allowed σ target s hz (ch0 :: rest) path 0 hzl)
        have h2' := (holds_map_le σ (SVar.zsat target path s) _).mp h2
        have h2'' : ∀ w ∈ (ch0 :: rest).map (fun ch => satVal allowed σ ch s),
            σ (SVar.zsat target path s) ≤ w := by
          rw [← hmap]
          exact mem_map_forall.mpr (fun v hv => h2' v hv)
        have h3' : ((ch0 :: rest).map (fun ch => satVal allowed σ ch s)).sum
            + (1 - (((ch0 :: rest).map (fun ch => satVal allowed σ ch s)).length : Int))
            ≤ σ (SVar.zsat target path s) := by
          simp only [holdsAll, List.all_cons, List.all_nil, Bool.and_true] at h3
          rw [holds_ge_iff, evar_eval, esum_eval, hmap] at h3
          rw [List.length_map]
          simpa using h3
        have hg := (and_gadget (σ (SVar.zsat target path s)) _ h01 (hz path)).mp ⟨h2'', h3'⟩
        simp only [allZ, Bool.and_eq_true, beq_iff_eq]
        refine ⟨?_, hzl⟩
        rw [hg, and_if_bridge]
      · intro h
        simp only [allZ, Bool.and_eq_true, beq_iff_eq] at h
        obtain ⟨hhead, hzl⟩ := h
        have hmap := zfrom_map_eq allowed σ target s (ch0 :: rest) path 0 hzl
        have h01 : ∀ w ∈ (ch0 :: rest).map (fun ch => satVal allowed σ ch s),
            w = 0 ∨ w = 1 :=
          mem_map_forall.mpr (allZL_satVal01 allowed σ target s hz (ch0 :: rest) path 0 hzl)
        have hval : σ (SVar.zsat target path s)
            = (if ∀ w ∈ (ch0 :: rest).map (fun ch => satVal allowed σ ch s), w = 1
               then (1 : Int) else 0) := by
          rw [hhead, and_if_bridge]
        obtain ⟨h2'', h3'⟩ :=
          (and_gadget (σ (SVar.zsat target path s)) _ h01 (hz path)).mpr hval
        simp only [sat_emit, holdsAll_append, Bool.and_eq_true]
        refine ⟨⟨(sat_emit_list_correct allowed target σ s (ch0 :: rest) hIH path 0).mpr hzl, ?_⟩, ?_⟩
        · rw [holdsAll] at *
          rw [holds_map_le]
          intro v hv
          have : σ v ∈ (ch0 :: rest).map (fun ch => satVal allowed σ ch s) := by
            rw [← hmap]
            exact List.mem_map_of_mem σ hv
          exact h2'' (σ v) this
        · simp only [holdsAll, List.all_cons, List.all_nil, Bool.and_true]
          rw [holds_ge_iff, evar_eval, esum_eval, hmap]
          rw [List.length_map] at h3'
          simpa using h3'
  · -- OR node
    intro items hIH path
    cases items with
    | nil =>
      simp [sat_emit, allZ, satVal, satAny, allZL, holdsAll, Constr.holds,
        evar_eval, econst_eval]
    | cons ch0 rest =>
      constructor
      · intro h
        simp only [sat_emit, holdsAll_append, Bool.and_eq_true] at h
        obtain ⟨⟨h1, h2⟩, h3⟩ := h
        have hzl := (sat_emit_list_correct allowed target σ s (ch0 :: rest) hIH path 0).mp h1
        have hmap := zfrom_map_eq allowed σ target s (ch0 :: rest) path 0 hzl
        have h01 : ∀ w ∈ (ch0 :: rest).map (fun ch => satVal allowed σ ch s),
            w = 0 ∨ w = 1 :=
          mem_map_forall.mpr (allZL_satVal01 allowed σ target s hz (ch0 :: rest) path 0 hzl)
        have h2' := (holds_map_ge σ (SVar.zsat target path s) _).mp h2
        have h2'' : ∀ w ∈ (ch0 :: rest).map (fun ch => satVal allowed σ ch s),
            w ≤ σ (SVar.zsat target path s) := by
          rw [← hmap]
          exact mem_map_forall.mpr (fun v hv => h2' v hv)
        have h3' : σ (SVar.zsat target path s)
            ≤ ((ch0 :: rest).map (fun ch => satVal allowed σ ch s)).sum := by
          simp only [holdsAll, List.all_cons, List.all_nil, Bool.and_true] at h3
          rw [holds_le_iff, evar_eval, esum_eval, hmap] at h3
          simpa using h3
        have hg := (or_gadget (σ (SVar.zsat target path s)) _ h01 (hz path)).mp ⟨h2'', h3'⟩
        simp only [allZ, Bool.and_eq_true, beq_iff_eq]
        refine ⟨?_, hzl⟩
        rw [hg, or_if_bridge]
      · intro h
        simp only [allZ, Bool.and_eq_true, beq_iff_eq] at h
        obtain ⟨hhead, hzl⟩ := h
        have hmap := zfrom_map_eq allowed σ target s (ch0 :: rest) path 0 hzl
        have h01 : ∀ w ∈ (ch0 :: rest).map (fun ch => satVal allowed σ ch s),
            w = 0 ∨ w = 1 :=
          mem_map_forall.mpr (allZL_satVal01 allowed σ target s hz (ch0 :: rest) path 0 hzl)
        have hval : σ (SVar.zsat target path s)
            = (if ∃ w ∈ (ch0 :: rest).map (fun ch => satVal allowed σ ch s), w = 1
               then (1 : Int) else 0) := by
          rw [hhead, or_if_bridge]
        obtain ⟨h2'', h3'⟩ :=
          (or_gadget (σ (SVar.zsat target path s)) _ h01 (hz path)).mpr hval
        simp only [sat_emit, holdsAll_append, Bool.and_eq_true]
        refine ⟨⟨(sat_emit_list_correct allowed target σ s (ch0 :: rest) hIH path 0).mpr hzl, ?_⟩, ?_⟩
        · rw [holdsAll, holds_map_ge]
          intro v hv
          have : σ v ∈ (ch0 :: rest).map (fun ch => satVal allowed σ ch s) := by
            rw [← hmap]
            exact List.mem_map_of_mem σ hv
          exact h2'' (σ v) this
        · simp only [holdsAll, List.all_cons, List.all_nil, Bool.and_true]
          rw [holds_le_iff, evar_eval, esum_eval, hmap]
          simpa using h3'

-- ---------------------------------------------------------------------------
-- Claim C1
-- ---------------------------------------------------------------------------

/-- C1: for every requirement tree node (located by its path) and semester s,
the linear constraints emitted by the Tseitin encoding hold under a 0/1
assignment exactly when every node's binary satisfaction variable equals the
boolean value of its subtree: an in-plan internal leaf equals the sum of its
placement variables over allowed semesters before s (which is 1 iff the
course is scheduled strictly before s given the exactly-once constraint); an
AND node is 1 iff every child's satisfaction variable is 1, the empty AND
being forced to 1; an OR node is 1 iff some child's satisfaction variable is
1, the empty OR being forced to 1; and external, unresolved, or plan-missing
leaves are forced to 1. -/
theorem c1_tseitin_encoding (allowed : List (Str × List Int)) (target : Str)
    (σ : SVar → Int) (s : Int)
    (hz : ∀ p : List Nat, σ (SVar.zsat target p s) = 0 ∨ σ (SVar.zsat target p s) = 1)
    (hx : ∀ (c : Str) (t : Int), σ (SVar.place c t) = 0 ∨ σ (SVar.place c t) = 1)
    (tree : Req) (path : List Nat) :
    holdsAll σ (sat_emit allowed target tree path s) = true
      ↔ allZ allowed σ target tree path s = true :=
  sat_emit_correct allowed target σ s hz tree path

/-- C1 witness: the equivalence evaluated under the all-ones assignment for a
small tree containing an in-plan leaf and an empty OR. -/
theorem c1_tseitin_encoding_witness :
    holdsAll (fun _ => 1)
      (sat_emit [("X".data, [1, 2])] "T".data
        (Req.anR [Req.leaf (some "X".data) "X".data "internal".data, Req.orR []])
        [] 2) = true :=
  (c1_tseitin_encoding [("X".data, [(1 : Int), 2])] "T".data (fun _ => 1) 2
    (fun _ => Or.inr rfl) (fun _ _ => Or.inr rfl)
    (Req.anR [Req.leaf (some "X".data) "X".data "internal".data, Req.orR []])
    []).mpr (by decide)

-- ---------------------------------------------------------------------------
-- Variable-shape lemmas for the model sections
-- ---------------------------------------------------------------------------

theorem esum_varsOf (vs : List SVar) (k : Int) : (esum vs k).varsOf = vs := by
  simp [esum, LinExpr.varsOf, List.map_map]

theorem evar_varsOf (v : SVar) : (evar v).varsOf = [v] := rfl

theorem econst_varsOf (k : Int) : (econst k).varsOf = [] := rfl

theorem zfrom_shape (target : Str) (path : List Nat) (s : Int) :
    ∀ (n i : Nat), ∀ v ∈ zfrom target path s i n, ∃ p, v = SVar.zsat target p s := by
  intro n
  induction n with
  | zero => intro i v hv; exact absurd hv (List.not_mem_nil v)
  | succ m ih =>
    intro i v hv
    rcases List.mem_cons.mp hv with h1 | h1
    · exact ⟨path ++ [i], h1⟩
    · exact ih (i + 1) v h1

theorem scheduled_before_varsOf (allowed : List (Str × List Int)) (c : Str) (s : Int) :
    ∀ v ∈ (scheduled_before_expr allowed c s).varsOf, ∃ t, v = SVar.place c t := by
  intro v hv
  unfold scheduled_before_expr at hv
  rw [esum_varsOf] at hv
  obtain ⟨t, _, rfl⟩ := List.mem_map.mp hv
  exact ⟨t, rfl⟩

theorem sat_emit_list_var_shape (allowed : List (Str × List Int)) (target : Str) (s : Int)
    (items : List Req)
    (hp : ∀ t ∈ items, ∀ path : List Nat, ∀ con ∈ sat_emit allowed target t path s,
      ∀ v ∈ con.varsOf, (∃ c t', v = SVar.place c t') ∨ ∃ p, v = SVar.zsat target p s) :
    ∀ (path : List Nat) (i : Nat), ∀ con ∈ sat_emit_list allowed target items path i s,
      ∀ v ∈ con.varsOf, (∃ c t', v = SVar.place c t') ∨ ∃ p, v = SVar.zsat target p s := by
  induction items with
  | nil => intro path i con hcon; exact absurd hcon (List.not_mem_nil con)
  | cons ch rest ih =>
    intro path i con hcon
    rcases List.mem_append.mp hcon with h1 | h1
    · exact hp ch (List.mem_cons_self _ _) (path ++ [i]) con h1
    · exact ih (fun t ht => hp t (List.mem_cons_of_mem _ ht)) path (i + 1) con h1

theorem sat_emit_var_shape (allowed : List (Str × List Int)) (target : Str) (s : Int) :
    ∀ (tree : Req) (path : List Nat), ∀ con ∈ sat_emit allowed target tree path s,
      ∀ v ∈ con.varsOf, (∃ c t', v = SVar.place c t') ∨ ∃ p, v = SVar.zsat target p s := by
  refine Req.ind (fun tree => ∀ (path : List Nat),
    ∀ con ∈ sat_emit allowed target tree path s,
      ∀ v ∈ con.varsOf, (∃ c t', v = SVar.place c t') ∨ ∃ p, v = SVar.zsat target p s)
    ?_ ?_ ?_
  · intro code rawv kindv path con hcon v hv
    cases code with
    | none =>
      simp only [sat_emit, List.mem_singleton] at hcon
      subst hcon
      simp only [Constr.varsOf, evar_varsOf, econst_varsOf, List.append_nil,
        List.mem_singleton] at hv
      exact Or.inr ⟨path, hv⟩
    | some c =>
      by_cases hlk : (dlookup allowed c).isNone
      · simp only [sat_emit, hlk, if_true, List.mem_singleton] at hcon
        subst hcon
        simp only [Constr.varsOf, evar_varsOf, econst_varsOf, List.append_nil,
          List.mem_singleton] at hv
        exact Or.inr ⟨path, hv⟩
      · simp only [sat_emit, hlk, if_false] at hcon
        rcases List.mem_cons.mp hcon with h1 | h1
        · subst h1
          simp only [Constr.varsOf, evar_varsOf] at hv
          rcases List.mem_cons.mp hv with h2 | h2
          · exact Or.inr ⟨path, h2⟩
          · obtain ⟨t, rfl⟩ := scheduled_before_varsOf allowed c s v (by simpa using h2)
            exact Or.inl ⟨c, t, rfl⟩
        · rw [List.mem_singleton] at h1
          subst h1
          simp only [Constr.varsOf, evar_varsOf] at hv
          rcases List.mem_cons.mp hv with h2 | h2
          · exact Or.inr ⟨path, h2⟩
          · obtain ⟨t, rfl⟩ := scheduled_before_varsOf allowed c s v (by simpa using h2)
            exact Or.inl ⟨c, t, rfl⟩
  · intro items hIH path con hcon v hv
    cases items with
    | nil =>
      simp only [sat_emit, List.mem_singleton] at hcon
      subst hcon
      simp only [Constr.varsOf, evar_varsOf, econst_varsOf, List.append_nil,
        List.mem_singleton] at hv
      exact Or.inr ⟨path, hv⟩
    | cons ch0 rest =>
      simp only [sat_emit] at hcon
      rcases List.mem_append.mp hcon with h1 | h1
      · rcases List.mem_append.mp h1 with h2 | h2
        · exact sat_emit_list_var_shape allowed target s (ch0 :: rest) hIH path 0 con h2 v hv
        · obtain ⟨cz, hcz, rfl⟩ := List.mem_map.mp h2
          simp only [Constr.varsOf, evar_varsOf] at hv
          rcases List.mem_cons.mp hv with h3 | h3
          · exact Or.inr ⟨path, h3⟩
          · have h3x : v = cz := List.mem_singleton.mp h3
            obtain ⟨p, hp⟩ := zfrom_shape target path s _ 0 cz hcz
            exact Or.inr ⟨p, h3x.trans hp⟩
      · rw [List.mem_singleton] at h1
        subst h1
        simp only [Constr.varsOf, evar_varsOf, esum_varsOf] at hv
        rcases List.mem_cons.mp hv with h3 | h3
        · exact Or.inr ⟨path, h3⟩
        · obtain ⟨p, rfl⟩ := zfrom_shape target path s _ 0 v h3
          exact Or.inr ⟨p, rfl⟩
  · intro items hIH path con hcon v hv
    cases items with
    | nil =>
      simp only [sat_emit, List.mem_singleton] at hcon
      subst hcon
      simp only [Constr.varsOf, evar_varsOf, econst_varsOf, List.append_nil,
        List.mem_singleton] at hv
      exact Or.inr ⟨path, hv⟩
    | cons ch0 rest =>
      simp only [sat_emit] at hcon
      rcases List.mem_append.mp hcon with h1 | h1
      · rcases List.mem_append.mp h1 with h2 | h2
        · exact sat_emit_list_var_shape allowed target s (ch0 :: rest) hIH path 0 con h2 v hv
        · obtain ⟨cz, hcz, rfl⟩ := List.mem_map.mp h2
          simp only [Constr.varsOf, evar_varsOf] at hv
          rcases List.mem_cons.mp hv with h3 | h3
          · exact Or.inr ⟨path, h3⟩
          · have h3x : v = cz := List.mem_singleton.mp h3
            obtain ⟨p, hp⟩ := zfrom_shape target path s _ 0 cz hcz
            exact Or.inr ⟨p, h3x.trans hp⟩
      · rw [List.mem_singleton] at h1
        subst h1
        simp only [Constr.varsOf, evar_varsOf, esum_varsOf] at hv
        rcases List.mem_cons.mp hv with h3 | h3
        · exact Or.inr ⟨path, h3⟩
        · obtain ⟨p, rfl⟩ := zfrom_shape target path s _ 0 v h3
          exact Or.inr ⟨p, rfl⟩

theorem mentionsZOf_of_any (c : Str) (con : Constr)
    (h : mentionsAnyZ con = false) : mentionsZOf c con = false := by
  unfold mentionsAnyZ at h
  unfold mentionsZOf
  rcases Bool.eq_false_or_eq_true (con.varsOf.any (isZsatOf c)) with hb | hb
  swap
  · exact hb
  · obtain ⟨v, hv, hvp⟩ := List.any_eq_true.mp hb
    have : isZsatVar v = true := by
      cases v with
      | place _ _ => simp [isZsatOf] at hvp
      | zsat _ _ _ => rfl
      | lastSem => simp [isZsatOf] at hvp
    have := List.any_eq_true.mpr ⟨v, hv, this⟩
    rw [h] at this
    exact absurd this (by simp)

theorem noZ_of_shape (con : Constr)
    (h : ∀ v ∈ con.varsOf, isZsatVar v = false) : mentionsAnyZ con = false := by
  unfold mentionsAnyZ
  rcases Bool.eq_false_or_eq_true (con.varsOf.any isZsatVar) with hb | hb
  swap
  · exact hb
  · obtain ⟨v, hv, hvp⟩ := List.any_eq_true.mp hb
    rw [h v hv] at hvp
    exact absurd hvp (by simp)

theorem noZ_one_sem (courses : List Str) (allowed : List (Str × List Int)) :
    ∀ con ∈ one_sem_constraints courses allowed, mentionsAnyZ con = false := by
  intro con hcon
  obtain ⟨c, _, rfl⟩ := List.mem_map.mp hcon
  apply noZ_of_shape
  intro v hv
  simp only [Constr.varsOf, esum_varsOf, econst_varsOf, List.append_nil] at hv
  obtain ⟨_, _, rfl⟩ := List.mem_map.mp hv
  rfl

theorem noZ_credit (courses : List Str) (allowed : List (Str × List Int))
    (credits : List (Str × Int)) (maxcr : List (Int × Int)) :
    ∀ con ∈ credit_constraints courses allowed credits maxcr,
      mentionsAnyZ con = false := by
  intro con hcon
  obtain ⟨s, _, rfl⟩ := List.mem_map.mp hcon
  apply noZ_of_shape
  intro v hv
  simp only [Constr.varsOf, LinExpr.varsOf, econst, List.map_nil, List.append_nil,
    List.map_map] at hv
  obtain ⟨_, _, rfl⟩ := List.mem_map.mp hv
  rfl

theorem noZ_last_sem (courses : List Str) (allowed : List (Str × List Int)) :
    ∀ con ∈ last_sem_constraints courses allowed, mentionsAnyZ con = false := by
  intro con hcon
  rcases List.mem_cons.mp hcon with h1 | h1
  · subst h1
    apply noZ_of_shape
    intro v hv
    simp only [Constr.varsOf, evar_varsOf, econst_varsOf, List.append_nil,
      List.mem_singleton] at hv
    subst hv
    rfl
  · obtain ⟨c, _, rfl⟩ := List.mem_map.mp h1
    apply noZ_of_shape
    intro v hv
    simp only [Constr.varsOf, sem_expr, LinExpr.varsOf, evar, List.map_cons,
      List.map_nil, List.map_map] at hv
    rcases List.mem_append.mp hv with h2 | h2
    · obtain ⟨_, _, rfl⟩ := List.mem_map.mp h2
      rfl
    · rw [List.mem_singleton] at h2
      subst h2
      rfl

theorem prereq_mem_elim (courses : List Str) (prereq_trees : List (Str × Req))
    (allowed : List (Str × List Int)) (con : Constr)
    (hcon : con ∈ prereq_constraints courses prereq_trees allowed) :
    ∃ c' tree', c' ∈ courses ∧ dlookup prereq_trees c' = some tree'
      ∧ con ∈ (add_ir_prereq_constraints allowed c' tree').1 := by
  unfold prereq_constraints at hcon
  obtain ⟨c', hc', hmem⟩ := List.mem_flatMap.mp hcon
  cases hl : dlookup prereq_trees c' with
  | none => rw [hl] at hmem; exact absurd hmem (List.not_mem_nil con)
  | some tree' =>
    rw [hl] at hmem
    exact ⟨c', tree', hc', hl, hmem⟩

theorem add_ir_var_shape (allowed : List (Str × List Int)) (target : Str) (tree : Req) :
    ∀ con ∈ (add_ir_prereq_constraints allowed target tree).1, ∀ v ∈ con.varsOf,
      (∃ c t', v = SVar.place c t') ∨ ∃ p s', v = SVar.zsat target p s' := by
  intro con hcon v hv
  unfold add_ir_prereq_constraints at hcon
  dsimp only at hcon
  obtain ⟨s, _, hmem⟩ := List.mem_flatMap.mp hcon
  rcases List.mem_append.mp hmem with h1 | h1
  · rcases sat_emit_var_shape allowed target s tree [] con h1 v hv with ⟨c, t', h⟩ | ⟨p, h⟩
    · exact Or.inl ⟨c, t', h⟩
    · exact Or.inr ⟨p, s, h⟩
  · rw [List.mem_singleton] at h1
    subst h1
    simp only [Constr.varsOf, evar_varsOf] at hv
    rcases List.mem_cons.mp hv with h2 | h2
    · exact Or.inl ⟨target, s, h2⟩
    · have h2x : v = SVar.zsat target [] s := List.mem_singleton.mp h2
      exact Or.inr ⟨[], s, h2x⟩

theorem add_ir_no_other_z (allowed : List (Str × List Int)) (target : Str) (tree : Req)
    (c : Str) (hne : c ≠ target) :
    ∀ con ∈ (add_ir_prereq_constraints allowed target tree).1,
      mentionsZOf c con = false := by
  intro con hcon
  unfold mentionsZOf
  rcases Bool.eq_false_or_eq_true (con.varsOf.any (isZsatOf c)) with hb | hb
  swap
  · exact hb
  · obtain ⟨v, hv, hvp⟩ := List.any_eq_true.mp hb
    rcases add_ir_var_shape allowed target tree con hcon v hv with ⟨c', t', rfl⟩ | ⟨p, s', rfl⟩
    · simp [isZsatOf] at hvp
    · simp only [isZsatOf, beq_iff_eq] at hvp
      exact absurd hvp.symm hne

-- ---------------------------------------------------------------------------
-- Claim C2
-- ---------------------------------------------------------------------------

/-- C2: when prerequisites are enabled, for every course with a requirement
tree and every allowed semester s of that course the successfully built model
contains the linking constraint place(c, s) at most the root satisfaction
variable; a course with no tree entry gets no prerequisite constraint at all
(no model constraint mentions any of its satisfaction variables); and with
prerequisites disabled no constraint of the model mentions any satisfaction
variable. -/
theorem c2_prereq_linking (courses : List Str) (prereq_trees : List (Str × Req))
    (allowed : List (Str × List Int)) (credits : List (Str × Int))
    (maxcr : List (Int × Int)) (use_credit_limits minimize_last_semester : Bool) :
    (∀ cons warns,
      build_model courses prereq_trees allowed credits maxcr
        use_credit_limits true minimize_last_semester = .ok (cons, warns) →
      (∀ c ∈ courses, ∀ tree, dlookup prereq_trees c = some tree →
        ∀ s ∈ (dlookup allowed c).getD [],
          Constr.le (evar (SVar.place c s)) (evar (SVar.zsat c [] s)) ∈ cons)
      ∧ (∀ c : Str, dlookup prereq_trees c = none →
          ∀ con ∈ cons, mentionsZOf c con = false))
    ∧ (∀ cons warns,
        build_model courses prereq_trees allowed credits maxcr
          use_credit_limits false minimize_last_semester = .ok (cons, warns) →
        ∀ con ∈ cons, mentionsAnyZ con = false) := by
  constructor
  · intro cons warns hok
    unfold build_model at hok
    cases hf : courses.find? (fun c => ((dlookup allowed c).getD []).isEmpty) with
    | some c0 => rw [hf] at hok; exact absurd hok (by simp)
    | none =>
      rw [hf] at hok
      have hp := Except.ok.inj hok
      have hcons : (one_sem_constraints courses allowed
          ++ (if use_credit_limits then
                credit_constraints courses allowed credits maxcr else [])
          ++ prereq_constraints courses prereq_trees allowed
          ++ (if minimize_last_semester then last_sem_constraints courses allowed
              else [])) = cons := by
        have := (Prod.ext_iff.mp hp).1
        simpa using this
      subst hcons
      constructor
      · intro c hc tree htree s hs
        refine List.mem_append.mpr (Or.inl (List.mem_append.mpr (Or.inr ?_)))
        unfold prereq_constraints
        refine List.mem_flatMap.mpr ⟨c, hc, ?_⟩
        rw [htree]
        unfold add_ir_prereq_constraints
        dsimp only
        refine List.mem_flatMap.mpr ⟨s, hs, ?_⟩
        exact List.mem_append.mpr (Or.inr (List.mem_singleton.mpr rfl))
      · intro c hctree con hcon
        rcases List.mem_append.mp hcon with h1 | h1
        · rcases List.mem_append.mp h1 with h2 | h2
          · rcases List.mem_append.mp h2 with h3 | h3
            · exact mentionsZOf_of_any c con (noZ_one_sem courses allowed con h3)
            · by_cases hb : use_credit_limits
              · rw [if_pos hb] at h3
                exact mentionsZOf_of_any c con
                  (noZ_credit courses allowed credits maxcr con h3)
              · rw [if_neg hb] at h3
                exact absurd h3 (List.not_mem_nil con)
          · obtain ⟨c', tree', hc', htree', hmem⟩ :=
              prereq_mem_elim courses prereq_trees allowed con h2
            have hne : c ≠ c' := by
              intro heq
              rw [heq, htree'] at hctree
              exact absurd hctree (by simp)
            exact add_ir_no_other_z allowed c' tree' c hne con hmem
        · by_cases hb : minimize_last_semester
          · rw [if_pos hb] at h1
            exact mentionsZOf_of_any c con (noZ_last_sem courses allowed con h1)
          · rw [if_neg hb] at h1
            exact absurd h1 (List.not_mem_nil con)
  · intro cons warns hok
    unfold build_model at hok
    cases hf : courses.find? (fun c => ((dlookup allowed c).getD []).isEmpty) with
    | some c0 => rw [hf] at hok; exact absurd hok (by simp)
    | none =>
      rw [hf] at hok
      have hp := Except.ok.inj hok
      have hcons : (one_sem_constraints courses allowed
          ++ (if use_credit_limits then
                credit_constraints courses allowed credits maxcr else [])
          ++ (if false then prereq_constraints courses prereq_trees allowed else [])
          ++ (if minimize_last_semester then last_sem_constraints courses allowed
              else [])) = cons := by
        have := (Prod.ext_iff.mp hp).1
        simpa using this
      subst hcons
      intro con hcon
      rcases List.mem_append.mp hcon with h1 | h1
      · rcases List.mem_append.mp h1 with h2 | h2
        · rcases List.mem_append.mp h2 with h3 | h3
          · exact noZ_one_sem courses allowed con h3
          · by_cases hb : use_credit_limits
            · rw [if_pos hb] at h3
              exact noZ_credit courses allowed credits maxcr con h3
            · rw [if_neg hb] at h3
              exact absurd h3 (List.not_mem_nil con)
        · rw [if_neg (show ¬(false = true) by simp)] at h2
          exact absurd h2 (List.not_mem_nil con)
      · by_cases hb : minimize_last_semester
        · rw [if_pos hb] at h1
          exact noZ_last_sem courses allowed con h1
        · rw [if_neg hb] at h1
          exact absurd h1 (List.not_mem_nil con)

/-- C2 witness: the linking constraint present in, and satisfaction variables
absent from, concrete built models. -/
theorem c2_prereq_linking_witness :
    (Constr.le (evar (SVar.place "A".data 1)) (evar (SVar.zsat "A".data [] 1))
      ∈ (one_sem_constraints ["A".data] [("A".data, [1])]
          ++ (if true then credit_constraints ["A".data] [("A".data, [1])] [] []
              else [])
          ++ prereq_constraints ["A".data]
              [("A".data, Req.leaf none "x".data "unresolved".data)]
              [("A".data, [1])]
          ++ (if true then last_sem_constraints ["A".data] [("A".data, [1])]
              else []))) := by
  have h := ((c2_prereq_linking ["A".data]
    [("A".data, Req.leaf none "x".data "unresolved".data)]
    [("A".data, ([1] : List Int))] [] [] true true).1
    (one_sem_constraints ["A".data] [("A".data, [1])]
      ++ (if true then credit_constraints ["A".data] [("A".data, [1])] [] [] else [])
      ++ prereq_constraints ["A".data]
          [("A".data, Req.leaf none "x".data "unresolved".data)] [("A".data, [1])]
      ++ (if true then last_sem_constraints ["A".data] [("A".data, [1])] else []))
    (prereq_warnings ["A".data]
      [("A".data, Req.leaf none "x".data "unresolved".data)] [("A".data, [1])])
    (by rfl)).1
  exact h "A".data (by decide) (Req.leaf none "x".data "unresolved".data)
    (by decide) 1 (by decide)

-- ---------------------------------------------------------------------------
-- Warning-collection lemmas
-- ---------------------------------------------------------------------------

theorem dedupWarnGo_append (l1 : List SolverWarning) :
    ∀ (seen : List (Str × Str × Str)) (l2 : List SolverWarning),
      dedupWarnGo seen (l1 ++ l2)
        = dedupWarnGo seen l1
            ++ dedupWarnGo (seen ++ (dedupWarnGo seen l1).map wkey) l2 := by
  induction l1 with
  | nil => intro seen l2; simp [dedupWarnGo]
  | cons w rest ih =>
    intro seen l2
    rw [List.cons_append]
    by_cases hw : wkey w ∈ seen
    · simp only [dedupWarnGo, if_pos hw]
      exact ih seen l2
    · simp only [dedupWarnGo, if_neg hw]
      rw [ih]
      simp only [List.cons_append, List.map_cons, List.append_assoc,
        List.singleton_append, List.nil_append]

theorem dedupWarnGo_covers (l : List SolverWarning) :
    ∀ (seen : List (Str × Str × Str)), ∀ w ∈ l,
      wkey w ∈ seen ++ (dedupWarnGo seen l).map wkey := by
  induction l with
  | nil => intro seen w hw; exact absurd hw (List.not_mem_nil w)
  | cons w0 rest ih =>
    intro seen w hw
    rcases List.mem_cons.mp hw with h1 | h1
    · subst h1
      by_cases hw0 : wkey w ∈ seen
      · exact List.mem_append.mpr (Or.inl hw0)
      · simp only [dedupWarnGo, if_neg hw0, List.map_cons]
        exact List.mem_append.mpr (Or.inr (List.mem_cons_self _ _))
    · by_cases hw0 : wkey w0 ∈ seen
      · simp only [dedupWarnGo, if_pos hw0]
        exact ih seen w h1
      · simp only [dedupWarnGo, if_neg hw0, List.map_cons]
        have := ih (seen ++ [wkey w0]) w h1
        rcases List.mem_append.mp this with h2 | h2
        · rcases List.mem_append.mp h2 with h3 | h3
          · exact List.mem_append.mpr (Or.inl h3)
          · rw [List.mem_singleton] at h3
            exact List.mem_append.mpr (Or.inr (by rw [h3]; exact List.mem_cons_self _ _))
        · exact List.mem_append.mpr (Or.inr (List.mem_cons_of_mem _ h2))

theorem dedupWarnGo_nil_of_seen (l : List SolverWarning) :
    ∀ (seen : List (Str × Str × Str)), (∀ w ∈ l, wkey w ∈ seen) →
      dedupWarnGo seen l = [] := by
  induction l with
  | nil => intro seen _; rfl
  | cons w0 rest ih =>
    intro seen h
    simp only [dedupWarnGo, if_pos (h w0 (List.mem_cons_self _ _))]
    exact ih seen (fun w hw => h w (List.mem_cons_of_mem _ hw))

theorem dedupWarnGo_nodup (l : List SolverWarning) :
    ∀ (seen : List (Str × Str × Str)),
      ((dedupWarnGo seen l).map wkey).Nodup
        ∧ ∀ w ∈ dedupWarnGo seen l, wkey w ∉ seen := by
  induction l with
  | nil => intro seen; exact ⟨List.nodup_nil, fun w hw => absurd hw (List.not_mem_nil w)⟩
  | cons w0 rest ih =>
    intro seen
    by_cases hw0 : wkey w0 ∈ seen
    · simp only [dedupWarnGo, if_pos hw0]
      exact ih seen
    · simp only [dedupWarnGo, if_neg hw0, List.map_cons]
      obtain ⟨hnd, hns⟩ := ih (seen ++ [wkey w0])
      constructor
      · rw [List.nodup_cons]
        refine ⟨?_, hnd⟩
        intro hmem
        obtain ⟨w, hw, hkeq⟩ := List.mem_map.mp hmem
        have := hns w hw
        exact this (List.mem_append.mpr (Or.inr (by rw [hkeq]; exact List.mem_singleton.mpr rfl)))
      · intro w hw
        rcases List.mem_cons.mp hw with h1 | h1
        · subst h1; exact hw0
        · intro hmem
          exact hns w h1 (List.mem_append.mpr (Or.inl hmem))

theorem warnPassL_spec (allowed : List (Str × List Int)) (target : Str)
    (items : List Req)
    (hp : ∀ t ∈ items, ∀ st : WState,
      warnPass allowed target t st
        = ⟨st.warns ++ dedupWarnGo st.seen ((leavesOf t).filterMap (leafWarning allowed target)),
           st.seen ++ (dedupWarnGo st.seen ((leavesOf t).filterMap (leafWarning allowed target))).map wkey⟩) :
    ∀ st : WState,
      warnPassL allowed target items st
        = ⟨st.warns ++ dedupWarnGo st.seen ((leavesOfL items).filterMap (leafWarning allowed target)),
           st.seen ++ (dedupWarnGo st.seen ((leavesOfL items).filterMap (leafWarning allowed target))).map wkey⟩ := by
  induction items with
  | nil => intro st; simp [warnPassL, leavesOfL, dedupWarnGo]
  | cons ch rest ih =>
    intro st
    have hch := hp ch (List.mem_cons_self _ _)
    have hrest := ih (fun t ht => hp t (List.mem_cons_of_mem _ ht))
    simp only [warnPassL]
    rw [hch st, hrest]
    simp only [leavesOfL, List.filterMap_append]
    rw [dedupWarnGo_append]
    simp only [List.map_append, List.append_assoc]

theorem warnStep_spec (allowed : List (Str × List Int)) (target : Str)
    (st : WState) (code : Option Str) (rawv kindv : Str) :
    warnPass allowed target (Req.leaf code rawv kindv) st
      = ⟨st.warns ++ dedupWarnGo st.seen
            ((leavesOf (Req.leaf code rawv kindv)).filterMap (leafWarning allowed target)),
         st.seen ++ (dedupWarnGo st.seen
            ((leavesOf (Req.leaf code rawv kindv)).filterMap (leafWarning allowed target))).map wkey⟩ := by
  cases code with
  | none =>
    simp only [leavesOf, List.filterMap, warnPass, warnStep, leafWarning]
    by_cases hr : pyStrip (pyStrip rawv) = []
    · simp only [hr, if_pos rfl]
      simp [dedupWarnGo]
    · rw [if_neg hr]
      simp only [if_neg hr]
      have hkind : (if (if kindv = "external".data ∨ kindv = "unresolved".data
            then kindv else "unresolved".data) = "external".data
          ∨ (if kindv = "external".data ∨ kindv = "unresolved".data
            then kindv else "unresolved".data) = "unresolved".data
          ∨ (if kindv = "external".data ∨ kindv = "unresolved".data
            then kindv else "unresolved".data) = "missing_course".data
        then (if kindv = "external".data ∨ kindv = "unresolved".data
            then kindv else "unresolved".data)
        else "unresolved".data)
          = (if kindv = "external".data ∨ kindv = "unresolved".data
            then kindv else "unresolved".data) := by
        by_cases hk : kindv = "external".data ∨ kindv = "unresolved".data
        · rw [if_pos hk]
          rcases hk with h | h
          · rw [if_pos (Or.inl h)]
          · rw [if_pos (Or.inr (Or.inl h))]
        · rw [if_neg hk]
          rw [if_pos (Or.inr (Or.inl rfl))]
      rw [hkind]
      by_cases hseen : (target, pyStrip (pyStrip rawv),
          if kindv = "external".data ∨ kindv = "unresolved".data
            then kindv else "unresolved".data) ∈ st.seen
      · rw [if_pos hseen]
        simp only [dedupWarnGo, wkey, if_pos hseen]
        simp [dedupWarnGo, wkey]
      · rw [if_neg hseen]
        simp only [dedupWarnGo, wkey, if_neg hseen]
        simp [dedupWarnGo, wkey]
  | some c =>
    simp only [leavesOf, List.filterMap, warnPass, leafWarning]
    by_cases hlk : (dlookup allowed c).isNone = true
    · simp only [hlk, if_true, warnStep]
      by_cases hr : pyStrip c = []
      · simp [hr, dedupWarnGo]
      · by_cases hseen : (target, pyStrip c, "missing_course".data) ∈ st.seen
        · simp [hr, hseen, dedupWarnGo, wkey]
        · simp [hr, hseen, dedupWarnGo, wkey]
    · simp [hlk, dedupWarnGo]

theorem warnPass_spec (allowed : List (Str × List Int)) (target : Str) :
    ∀ (tree : Req) (st : WState),
      warnPass allowed target tree st
        = ⟨st.warns ++ dedupWarnGo st.seen ((leavesOf tree).filterMap (leafWarning allowed target)),
           st.seen ++ (dedupWarnGo st.seen ((leavesOf tree).filterMap (leafWarning allowed target))).map wkey⟩ := by
  refine Req.ind (fun tree => ∀ st : WState,
    warnPass allowed target tree st
      = ⟨st.warns ++ dedupWarnGo st.seen ((leavesOf tree).filterMap (leafWarning allowed target)),
         st.seen ++ (dedupWarnGo st.seen ((leavesOf tree).filterMap (leafWarning allowed target))).map wkey⟩)
    ?_ ?_ ?_
  · intro code rawv kindv st
    exact warnStep_spec allowed target st code rawv kindv
  · intro items hIH st
    simp only [warnPass, leavesOf]
    exact warnPassL_spec allowed target items hIH st
  · intro items hIH st
    simp only [warnPass, leavesOf]
    exact warnPassL_spec allowed target items hIH st

theorem foldl_fixed {α β : Type} (f : α → α) (st : α) (hf : f st = st) :
    ∀ l : List β, l.foldl (fun a _ => f a) st = st := by
  intro l
  induction l with
  | nil => rfl
  | cons x xs ih => rw [List.foldl_cons, hf]; exact ih

theorem add_ir_warns_eq (allowed : List (Str × List Int)) (target : Str) (tree : Req)
    (hsem : (dlookup allowed target).getD [] ≠ []) :
    (add_ir_prereq_constraints allowed target tree).2
      = dedupWarns ((leavesOf tree).filterMap (leafWarning allowed target)) := by
  unfold add_ir_prereq_constraints
  dsimp only
  cases hs : (dlookup allowed target).getD [] with
  | nil => exact absurd hs hsem
  | cons s0 rest =>
    rw [List.foldl_cons]
    have hfirst : warnPass allowed target tree ⟨[], []⟩
        = ⟨dedupWarns ((leavesOf tree).filterMap (leafWarning allowed target)),
           (dedupWarns ((leavesOf tree).filterMap (leafWarning allowed target))).map wkey⟩ := by
      rw [warnPass_spec]
      simp [dedupWarns]
    rw [hfirst]
    have hstable : warnPass allowed target tree
        ⟨dedupWarns ((leavesOf tree).filterMap (leafWarning allowed target)),
         (dedupWarns ((leavesOf tree).filterMap (leafWarning allowed target))).map wkey⟩
        = ⟨dedupWarns ((leavesOf tree).filterMap (leafWarning allowed target)),
           (dedupWarns ((leavesOf tree).filterMap (leafWarning allowed target))).map wkey⟩ := by
      rw [warnPass_spec]
      have hnil : dedupWarnGo
          ((dedupWarns ((leavesOf tree).filterMap (leafWarning allowed target))).map wkey)
          ((leavesOf tree).filterMap (leafWarning allowed target)) = [] := by
        apply dedupWarnGo_nil_of_seen
        intro w hw
        have := dedupWarnGo_covers ((leavesOf tree).filterMap (leafWarning allowed target))
          [] w hw
        simpa [dedupWarns] using this
      rw [hnil]
      simp
    rw [foldl_fixed _ _ hstable rest]

theorem getElem?_mem_list {α : Type} : ∀ (l : List α) (i : Nat) (a : α),
    l[i]? = some a → a ∈ l := by
  intro l
  induction l with
  | nil => intro i a h; simp at h
  | cons x xs ih =>
    intro i a h
    cases i with
    | zero =>
      simp only [List.getElem?_cons_zero] at h
      exact (Option.some.inj h) ▸ List.mem_cons_self _ _
    | succ j =>
      simp only [List.getElem?_cons_succ] at h
      exact List.mem_cons_of_mem _ (ih j a h)

theorem sat_emit_list_mem_of_child (allowed : List (Str × List Int)) (target : Str)
    (s : Int) :
    ∀ (items : List Req) (j : Nat) (ch : Req) (path : List Nat) (i : Nat) (con : Constr),
      items[j]? = some ch → con ∈ sat_emit allowed target ch (path ++ [i + j]) s →
      con ∈ sat_emit_list allowed target items path i s := by
  intro items
  induction items with
  | nil => intro j ch path i con h; simp at h
  | cons ch0 rest ih =>
    intro j ch path i con hj hcon
    cases j with
    | zero =>
      simp only [List.getElem?_cons_zero] at hj
      obtain rfl := Option.some.inj hj
      refine List.mem_append.mpr (Or.inl ?_)
      simpa using hcon
    | succ j' =>
      simp only [List.getElem?_cons_succ] at hj
      refine List.mem_append.mpr (Or.inr ?_)
      refine ih j' ch path (i + 1) con hj ?_
      have : i + 1 + j' = i + (j' + 1) := by omega
      rwa [this]

theorem sat_emit_forced (allowed : List (Str × List Int)) (target : Str) (s : Int) :
    ∀ (tree : Req) (path0 p : List Nat) (code : Option Str) (rawv kindv : Str),
      subtreeAt tree p = some (Req.leaf code rawv kindv) →
      (code = none ∨ ∃ c, code = some c ∧ (dlookup allowed c).isNone = true) →
      Constr.eq (evar (SVar.zsat target (path0 ++ p) s)) (econst 1)
        ∈ sat_emit allowed target tree path0 s := by
  refine Req.ind (fun tree => ∀ (path0 p : List Nat) (code : Option Str) (rawv kindv : Str),
    subtreeAt tree p = some (Req.leaf code rawv kindv) →
    (code = none ∨ ∃ c, code = some c ∧ (dlookup allowed c).isNone = true) →
    Constr.eq (evar (SVar.zsat target (path0 ++ p) s)) (econst 1)
      ∈ sat_emit allowed target tree path0 s) ?_ ?_ ?_
  · intro c0 r0 k0 path0 p code rawv kindv hsub hforce
    cases p with
    | nil =>
      simp only [subtreeAt] at hsub
      have heq := Option.some.inj hsub
      injection heq with hc0 hr0 hk0
      subst hc0
      rw [List.append_nil]
      rcases hforce with h | ⟨c, hc, hlk⟩
      · subst h
        simp [sat_emit]
      · subst hc
        simp [sat_emit, hlk]
    | cons j p' => simp [subtreeAt] at hsub
  · intro items hIH path0 p code rawv kindv hsub hforce
    cases p with
    | nil =>
      simp only [subtreeAt] at hsub
      exact absurd (Option.some.inj hsub) (by intro h; exact Req.noConfusion h)
    | cons j p' =>
      simp only [subtreeAt] at hsub
      cases hj : items[j]? with
      | none => rw [hj] at hsub; exact absurd hsub (by simp)
      | some ch =>
        rw [hj] at hsub
        have hch : ch ∈ items := getElem?_mem_list items j ch hj
        have hin := hIH ch hch (path0 ++ [j]) p' code rawv kindv hsub hforce
        have hpath : (path0 ++ [j]) ++ p' = path0 ++ (j :: p') := by
          rw [List.append_assoc]
          rfl
        rw [hpath] at hin
        cases items with
        | nil => exact absurd hj (by simp)
        | cons c0 rest =>
          simp only [sat_emit]
          refine List.mem_append.mpr (Or.inl (List.mem_append.mpr (Or.inl ?_)))
          refine sat_emit_list_mem_of_child allowed target s (c0 :: rest) j ch path0 0 _ hj ?_
          rwa [Nat.zero_add]
  · intro items hIH path0 p code rawv kindv hsub hforce
    cases p with
    | nil =>
      simp only [subtreeAt] at hsub
      exact absurd (Option.some.inj hsub) (by intro h; exact Req.noConfusion h)
    | cons j p' =>
      simp only [subtreeAt] at hsub
      cases hj : items[j]? with
      | none => rw [hj] at hsub; exact absurd hsub (by simp)
      | some ch =>
        rw [hj] at hsub
        have hch : ch ∈ items := getElem?_mem_list items j ch hj
        have hin := hIH ch hch (path0 ++ [j]) p' code rawv kindv hsub hforce
        have hpath : (path0 ++ [j]) ++ p' = path0 ++ (j :: p') := by
          rw [List.append_assoc]
          rfl
        rw [hpath] at hin
        cases items with
        | nil => exact absurd hj (by simp)
        | cons c0 rest =>
          simp only [sat_emit]
          refine List.mem_append.mpr (Or.inl (List.mem_append.mpr (Or.inl ?_)))
          refine sat_emit_list_mem_of_child allowed target s (c0 :: rest) j ch path0 0 _ hj ?_
          rwa [Nat.zero_add]

-- ---------------------------------------------------------------------------
-- Claim C6
-- ---------------------------------------------------------------------------

/-- C6: during one compile of a course's requirement tree (over a non-empty
allowed-semester list for the target), the warnings emitted are exactly the
first-occurrence deduplication, by the (course, raw, kind) triple, of the
per-leaf warnings in traversal order — where a codeless (external or
unresolved) leaf warns with its stripped raw text unless that is empty, and
an internal leaf absent from the allowed-semesters universe warns as
missing_course — so each distinct triple appears at most once even though
leaves are re-encoded per semester; and every such leaf is vacuously
satisfied: its satisfaction variable is forced to 1 at every allowed semester
of the target. -/
theorem c6_warning_dedup (allowed : List (Str × List Int)) (target : Str) (tree : Req)
    (hsem : (dlookup allowed target).getD [] ≠ []) :
    (add_ir_prereq_constraints allowed target tree).2
        = dedupWarns ((leavesOf tree).filterMap (leafWarning allowed target))
    ∧ (((add_ir_prereq_constraints allowed target tree).2.map wkey).Nodup)
    ∧ (∀ s ∈ (dlookup allowed target).getD [],
        ∀ (p : List Nat) (code : Option Str) (rawv kindv : Str),
          subtreeAt tree p = some (Req.leaf code rawv kindv) →
          (code = none ∨ ∃ c, code = some c ∧ (dlookup allowed c).isNone = true) →
          Constr.eq (evar (SVar.zsat target p s)) (econst 1)
            ∈ (add_ir_prereq_constraints allowed target tree).1) := by
  have heq := add_ir_warns_eq allowed target tree hsem
  refine ⟨heq, ?_, ?_⟩
  · rw [heq]
    exact (dedupWarnGo_nodup ((leavesOf tree).filterMap (leafWarning allowed target)) []).1
  · intro s hs p code rawv kindv hsub hforce
    unfold add_ir_prereq_constraints
    dsimp only
    refine List.mem_flatMap.mpr ⟨s, hs, ?_⟩
    refine List.mem_append.mpr (Or.inl ?_)
    have := sat_emit_forced allowed target s tree [] p code rawv kindv hsub hforce
    rwa [List.nil_append] at this

/-- C6 witness: a tree with a duplicated unresolved leaf, an external leaf,
an empty-raw leaf, and a missing internal leaf, compiled for a target with
two allowed semesters: the warning list, its key distinctness, and the forced
satisfaction constraint, all evaluated concretely. -/
theorem c6_warning_dedup_witness :
    (add_ir_prereq_constraints [("X".data, [1, 2])] "X".data
        (Req.anR [Req.leaf none "foo".data "unresolved".data,
                  Req.leaf none "foo".data "unresolved".data,
                  Req.leaf none " ".data "external".data,
                  Req.leaf (some "Y".data) "Y".data "internal".data])).2
      = dedupWarns ((leavesOf
          (Req.anR [Req.leaf none "foo".data "unresolved".data,
                    Req.leaf none "foo".data "unresolved".data,
                    Req.leaf none " ".data "external".data,
                    Req.leaf (some "Y".data) "Y".data "internal".data])).filterMap
          (leafWarning [("X".data, [1, 2])] "X".data))
    ∧ Constr.eq (evar (SVar.zsat "X".data [0] 1)) (econst 1)
        ∈ (add_ir_prereq_constraints [("X".data, [1, 2])] "X".data
            (Req.anR [Req.leaf none "foo".data "unresolved".data,
                      Req.leaf none "foo".data "unresolved".data,
                      Req.leaf none " ".data "external".data,
                      Req.leaf (some "Y".data) "Y".data "internal".data])).1 :=
  ⟨(c6_warning_dedup [("X".data, [(1 : Int), 2])] "X".data
      (Req.anR [Req.leaf none "foo".data "unresolved".data,
                Req.leaf none "foo".data "unresolved".data,
                Req.leaf none " ".data "external".data,
                Req.leaf (some "Y".data) "Y".data "internal".data])
      (by decide)).1,
   (c6_warning_dedup [("X".data, [(1 : Int), 2])] "X".data
      (Req.anR [Req.leaf none "foo".data "unresolved".data,
                Req.leaf none "foo".data "unresolved".data,
                Req.leaf none " ".data "external".data,
                Req.leaf (some "Y".data) "Y".data "internal".data])
      (by decide)).2.2 1 (by decide) [0] none "foo".data "unresolved".data
      (by decide) (Or.inl rfl)⟩
